import Mathlib

/-!
# Verification of the capytaine mesh module

A shallow embedding of `capytaine/mesh/mesh.py` (class `Mesh`): vertex and
face arrays, the `__internals__` cache dictionary, and the operations the
specification describes (translate, flip_normals, triangulate_quadrangles,
extract_faces, get_immersed_part, heal_mesh, set-of-faces equality).

Coordinates are modelled as rationals (the Python code uses floats but every
property checked here is exact arithmetic on the stored values).  The cache
dictionary `__internals__` is modelled as a record of `Option`-valued fields,
one per family of keys that the Python code inserts and deletes together;
the cached *payloads* (areas, centers, normals, radii, surface integrals)
are carried as data, since the claims below concern only how the operations
transform the cache, not the geometric formulas of the helper module
`mesh_properties.py` (which is not part of the sources under verification).
-/

set_option autoImplicit false

namespace Capytaine

/-- A vertex: one row of the `(nv, 3)` vertex array. -/
abbrev Point : Type := ℚ × ℚ × ℚ


/-- A face: one row of the `(nf, 4)` face array, four vertex indices. -/
abbrev Face : Type := ℕ × ℕ × ℕ × ℕ

/-- Componentwise addition of 3-vectors (`vertices += vector`). -/
def vadd (a b : Point) : Point := (a.1 + b.1, a.2.1 + b.2.1, a.2.2 + b.2.2)

/-- Componentwise negation of a 3-vector (`faces_normals *= -1`). -/
def vneg (a : Point) : Point := (-a.1, -a.2.1, -a.2.2)

/-- The four per-face property arrays that `compute_faces_properties` stores
under the keys `faces_areas`, `faces_centers`, `faces_normals`,
`faces_radiuses`; they are inserted and removed together. -/
structure FacesProperties where
  faces_areas : List ℚ
  faces_centers : List Point
  faces_normals : List Point
  faces_radiuses : List ℚ
deriving DecidableEq

/-- The `__internals__` dictionary, grouped by the key families the code
manages together.  `none` means the keys are absent (cache invalid). -/
structure Internals where
  facesProperties : Option FacesProperties
  surfaceIntegrals : Option (List ℚ)
  trianglesQuadrangles : Option (List ℕ × List ℕ)
  connectivityData : Option Unit
deriving DecidableEq

/-- `self.__internals__.clear()` / the freshly constructed empty dictionary. -/
def Internals.empty : Internals := ⟨none, none, none, none⟩

/-- The `Mesh` object: `_vertices`, `_faces`, `name`, `__internals__`. -/
structure Mesh where
  vertices : List Point
  faces : List Face
  name : String
  internals : Internals
deriving DecidableEq

namespace Mesh

/-- `nb_vertices`. -/
def nb_vertices (m : Mesh) : ℕ := m.vertices.length

/-- `nb_faces`. -/
def nb_faces (m : Mesh) : ℕ := m.faces.length

/-- The `vertices` property setter: replaces `_vertices` and clears
`__internals__`. -/
def set_vertices (m : Mesh) (v : List Point) : Mesh :=
  { m with vertices := v, internals := Internals.empty }

/-- The `faces` property setter: replaces `_faces` and clears
`__internals__`. -/
def set_faces (m : Mesh) (f : List Face) : Mesh :=
  { m with faces := f, internals := Internals.empty }

/-- `Mesh.translate(self, vector)` (the in-place variant): executes
`self.vertices += vector` — which goes through the `vertices` property
setter, hence clears `__internals__` — then, if the face properties are
still cached, shifts the cached `faces_centers`, and finally removes the
surface integrals if cached. -/
def translate (m : Mesh) (vector : Point) : Mesh :=
  let m1 := m.set_vertices (m.vertices.map (fun p => vadd p vector))
  let m2 :=
    if m1.internals.facesProperties.isSome then
      { m1 with internals :=
        { m1.internals with facesProperties :=
            m1.internals.facesProperties.map (fun fp =>
              { fp with faces_centers :=
                  fp.faces_centers.map (fun c => vadd c vector) }) } }
    else m1
  if m2.internals.surfaceIntegrals.isSome then
    { m2 with internals := { m2.internals with surfaceIntegrals := none } }
  else m2

end Mesh

/-- Reversal of one row of the face array (`np.fliplr`). -/
def revFace : Face → Face := fun f => (f.2.2.2, f.2.2.1, f.2.1, f.1)

/-- `self._faces[face_id, 0] == self._faces[face_id, -1]`, on a face row. -/
def isTriangleFace (f : Face) : Bool := f.1 == f.2.2.2

/-- The triangle appended by `triangulate_quadrangles`: columns `t1 = (0,1,2)`
copied into the first three slots of a copy of the quadrangle row, then the
last entry set to the first (`new_faces[:, :3] = new_faces[:, t1];
new_faces[:, -1] = new_faces[:, 0]`). -/
def splitQuadAppended (f : Face) : Face := (f.1, f.2.1, f.2.2.1, f.1)

/-- The triangle written into the original quadrangle slot: columns
`t2 = (0,2,3)` into the first three slots, last entry set to the first
(`faces[ids, :3] = faces[:, t2][ids]; faces[ids, -1] = faces[ids, 0]`). -/
def splitQuadInPlace (f : Face) : Face := (f.1, f.2.2.1, f.2.2.2, f.1)

namespace Mesh

/-- `Mesh.flip_normals(self)` (the in-place variant): assigns
`self._faces = np.fliplr(self._faces)` directly (no setter, so the cache
dictionary survives), negates the cached `faces_normals` if the face
properties are cached, and removes the surface integrals if cached. -/
def flip_normals (m : Mesh) : Mesh :=
  let m1 := { m with faces := m.faces.map revFace }
  let m2 :=
    if m1.internals.facesProperties.isSome then
      { m1 with internals :=
        { m1.internals with facesProperties :=
            m1.internals.facesProperties.map (fun fp =>
              { fp with faces_normals := fp.faces_normals.map vneg }) } }
    else m1
  if m2.internals.surfaceIntegrals.isSome then
    { m2 with internals := { m2.internals with surfaceIntegrals := none } }
  else m2

/-- `Mesh.is_triangle(self, face_id)`. -/
def is_triangle (m : Mesh) (face_id : ℕ) : Bool :=
  isTriangleFace (m.faces.getD face_id default)

/-- `triangles_ids`: indices of the rows whose first and last entries
coincide (`np.where` of the triangle mask, hence in increasing order). -/
def triangles_ids (m : Mesh) : List ℕ :=
  (List.range m.faces.length).filter (fun i => m.is_triangle i)

/-- `quadrangles_ids`: indices of the remaining rows (inverted mask). -/
def quadrangles_ids (m : Mesh) : List ℕ :=
  (List.range m.faces.length).filter (fun i => !(m.is_triangle i))

/-- `nb_triangles`. -/
def nb_triangles (m : Mesh) : ℕ := m.triangles_ids.length

/-- `nb_quadrangles`. -/
def nb_quadrangles (m : Mesh) : ℕ := m.quadrangles_ids.length

/-- `Mesh.triangulate_quadrangles(self)`: rewrites each quadrangle row in
place as the `t2` triangle, appends the `t1` triangles (in quadrangle-index
order) at the end of the face array, and clears `__internals__`. -/
def triangulate_quadrangles (m : Mesh) : Mesh :=
  let new_faces := (m.faces.filter (fun f => !(isTriangleFace f))).map splitQuadAppended
  let modified := m.faces.map (fun f =>
    if isTriangleFace f then f else splitQuadInPlace f)
  { m with faces := modified ++ new_faces, internals := Internals.empty }

end Mesh

/-! ## Construction (`Mesh.__init__`) -/

/-- The first assertion of the constructor:
`all(int(vertex_id) == vertex_id >= 0 for face in faces for vertex_id in face)` —
every entry of the raw face array is an integral value that is ≥ 0. -/
def facesEntriesOk (faces : List (List ℚ)) : Prop :=
  ∀ f ∈ faces, ∀ x ∈ f, x.den = 1 ∧ 0 ≤ x

instance (faces : List (List ℚ)) : Decidable (facesEntriesOk faces) := by
  unfold facesEntriesOk; infer_instance

/-- `self._vertices.shape[1] == 3`: every row of the vertex array has three
entries. -/
def verticesShapeOk (vertices : List (List ℚ)) : Prop :=
  ∀ v ∈ vertices, v.length = 3

instance (vertices : List (List ℚ)) : Decidable (verticesShapeOk vertices) := by
  unfold verticesShapeOk; infer_instance

/-- `self._faces.shape[1] == 4`: every row of the face array has four
entries. -/
def facesShapeOk (faces : List (List ℚ)) : Prop :=
  ∀ f ∈ faces, f.length = 4

instance (faces : List (List ℚ)) : Decidable (facesShapeOk faces) := by
  unfold facesShapeOk; infer_instance

/-- `len(self._faces) == 0 or self._faces.max()+1 <= len(self._vertices)`:
every face index is strictly below the number of vertices (stated entrywise,
which is equivalent to the max formulation). -/
def facesIndicesOk (vertices : List (List ℚ)) (faces : List (List ℚ)) : Prop :=
  ∀ f ∈ faces, ∀ x ∈ f, x < (vertices.length : ℚ)

instance (vertices faces : List (List ℚ)) :
    Decidable (facesIndicesOk vertices faces) := by
  unfold facesIndicesOk; infer_instance

/-- A raw 3-entry row as a `Point`. -/
def rowToPoint (row : List ℚ) : Point := (row.getD 0 0, row.getD 1 0, row.getD 2 0)

/-- A raw 4-entry row as a `Face` (entries are integral and ≥ 0 when the
constructor's checks pass, so `num.toNat` is exact). -/
def rowToFace (row : List ℚ) : Face :=
  ((row.getD 0 0).num.toNat, (row.getD 1 0).num.toNat,
   (row.getD 2 0).num.toNat, (row.getD 3 0).num.toNat)

/-- `Mesh.__init__(self, vertices, faces, name)`: runs the constructor's
assertions in source order and either fails with the assertion message or
returns the constructed mesh with an empty `__internals__`. -/
def mkMesh (vertices faces : List (List ℚ)) (name : String) : Except String Mesh :=
  if ¬ facesEntriesOk faces then
    .error "Faces of a mesh should be provided as positive integers (ids of vertices)"
  else if ¬ verticesShapeOk vertices then
    .error "Vertices of a mesh should be provided as a sequence of 3-ple."
  else if ¬ facesShapeOk faces then
    .error "Faces of a mesh should be provided as a sequence of 4-ple."
  else if ¬ facesIndicesOk vertices faces then
    .error "The array of faces references vertices that are not in the mesh."
  else
    .ok { vertices := vertices.map rowToPoint, faces := faces.map rowToFace,
          name := name, internals := Internals.empty }

/-! ## Set-of-faces comparison (`as_set_of_faces`, `from_set_of_faces`, `__eq__`) -/

/-- A face as its 4-tuple of vertex-coordinate triples
(`tuple(tuple(vertex) for vertex in face)`). -/
abbrev FaceCoords : Type := Point × Point × Point × Point

namespace Mesh

/-- `self.vertices[i]`; the Python code never reads an out-of-range index on
a well-formed mesh, so the default value is irrelevant under the validity
hypotheses of the theorems below. -/
def vertexAt (m : Mesh) (i : ℕ) : Point := m.vertices.getD i (0, 0, 0)

/-- One row of `self.vertices[self.faces]`: the coordinates of a face's four
vertices. -/
def faceCoords (m : Mesh) (f : Face) : FaceCoords :=
  (m.vertexAt f.1, m.vertexAt f.2.1, m.vertexAt f.2.2.1, m.vertexAt f.2.2.2)

/-- The list of face-coordinate tuples, in face order. -/
def facesCoordsList (m : Mesh) : List FaceCoords := m.faces.map (m.faceCoords)

/-- `Mesh.as_set_of_faces(self)`: the set of face-coordinate tuples. -/
def as_set_of_faces (m : Mesh) : Finset FaceCoords := m.facesCoordsList.toFinset

/-- `Mesh.__eq__`: equality of the two sets of faces. -/
def meshEq (m1 m2 : Mesh) : Prop := m1.as_set_of_faces = m2.as_set_of_faces

instance (m1 m2 : Mesh) : Decidable (meshEq m1 m2) := by
  unfold meshEq; infer_instance

end Mesh

/-- `vertices.index(vertex)`: the index of the first occurrence. -/
def indexOfV : List Point → Point → ℕ
  | [], _ => 0
  | w :: t, v => if w = v then 0 else indexOfV t v + 1

/-- One loop iteration of `from_set_of_faces` over a vertex of a face:
`if vertex in vertices: i = vertices.index(vertex)`
`else: i = len(vertices); vertices.append(vertex)`. -/
def addVertex (acc : List Point) (v : Point) : List Point × ℕ :=
  if v ∈ acc then (acc, indexOfV acc v) else (acc ++ [v], acc.length)

/-- The inner loop of `from_set_of_faces`: the four vertices of one face are
interned in order, producing the face's index quadruple. -/
def addFaceCoords (acc : List Point) (fc : FaceCoords) : List Point × Face :=
  let r1 := addVertex acc fc.1
  let r2 := addVertex r1.1 fc.2.1
  let r3 := addVertex r2.1 fc.2.2.1
  let r4 := addVertex r3.1 fc.2.2.2
  (r4.1, (r1.2, r2.2, r3.2, r4.2))

/-- The outer loop of `from_set_of_faces`, iterating over the faces of the
set (in the iteration order of the Python set, which is modelled as an
arbitrary enumerating list). -/
def buildFromFaces (acc : List Point) : List FaceCoords → List Point × List Face
  | [] => (acc, [])
  | fc :: rest =>
    let r := addFaceCoords acc fc
    let rest' := buildFromFaces r.1 rest
    (rest'.1, r.2 :: rest'.2)

/-- `Mesh.from_set_of_faces(set_of_faces)`: interns the vertices of each face
of the set and builds the mesh from the resulting arrays. -/
def Mesh.from_set_of_faces (l : List FaceCoords) : Mesh :=
  { vertices := (buildFromFaces [] l).1, faces := (buildFromFaces [] l).2,
    name := "from_set_of_faces", internals := Internals.empty }

/-! ## Extraction (`extract_faces`) and unused-vertex removal -/

/-- Apply an index remapping to the four entries of a face row. -/
def mapFace (g : ℕ → ℕ) (f : Face) : Face := (g f.1, g f.2.1, g f.2.2.1, g f.2.2.2)

/-- The four indices of a face row as a list. -/
def faceIndexList (f : Face) : List ℕ := [f.1, f.2.1, f.2.2.1, f.2.2.2]

namespace Mesh

/-- `Mesh.extract_faces(self, id_faces_to_extract, return_index=True)`:
marks the vertices referenced by the selected faces (`vertices_mask`), keeps
them in index order (`id_v`), remaps each selected face through the dense
renumbering `new_id__v`, and returns the extracted mesh together with
`id_v`. -/
def extract_faces (m : Mesh) (id_faces_to_extract : List ℕ) : Mesh × List ℕ :=
  let selected := id_faces_to_extract.map (fun i => m.faces.getD i default)
  let used : ℕ → Bool := fun vi => selected.any (fun f => vi ∈ faceIndexList f)
  let id_v := (List.range m.vertices.length).filter used
  let v_extracted := id_v.map (fun i => m.vertexAt i)
  let faces_extracted := selected.map (mapFace (fun i => id_v.indexOf i))
  ({ vertices := v_extracted, faces := faces_extracted,
     name := "mesh_extracted_from_" ++ m.name, internals := Internals.empty },
   id_v)

/-- A vertex index is used when some face references it. -/
def usedIdx (m : Mesh) (vi : ℕ) : Bool :=
  m.faces.any (fun f => vi ∈ faceIndexList f)

/-- Modelled from the spec (the body of `remove_unused_vertices` lives in
`mesh_quality.py`, which is not among the sources): "vertices not referenced
by any face are dropped; remaining face indices are remapped to the new
dense numbering".  Mutating both arrays invalidates every cached quantity
("any mutation of either array invalidates all of them"). -/
def remove_unused_vertices (m : Mesh) : Mesh :=
  let id_v := (List.range m.vertices.length).filter m.usedIdx
  { vertices := id_v.map (fun i => m.vertexAt i),
    faces := m.faces.map (mapFace (fun i => id_v.indexOf i)),
    name := m.name, internals := Internals.empty }

end Mesh

/-! ## Immersion (`get_immersed_part`) -/

/-- `Plane(normal=..., scalar=...)` from `capytaine.tools.geometry`: a plane
in point-normal-offset form. -/
structure Plane where
  normal : Point
  c : ℚ
deriving DecidableEq

namespace Mesh

/-- The z column `self.vertices[:, 2]`. -/
def zcoords (m : Mesh) : List ℚ := m.vertices.map (fun p => p.2.2)

/-- `self.vertices[:, 2].min()`; meaningful for a nonempty vertex array (the
Python code errors on an empty one). -/
def zmin (m : Mesh) : ℚ := m.zcoords.foldr min (m.zcoords.headD 0)

/-- `self.vertices[:, 2].max()`; meaningful for a nonempty vertex array. -/
def zmax (m : Mesh) : ℚ := m.zcoords.foldr max (m.zcoords.headD 0)

/-- `Mesh.get_immersed_part(self, free_surface, sea_bottom)`.  The sea bottom
is `Option ℚ` with `none` standing for the default `-infinity`.  The clipper
(`MeshClipper`, from `mesh_clipper.py`, not among the sources) is taken as an
explicit function argument `clip`, applied to the same planes as in the
source: the free-surface plane has normal `(0,0,1)` and offset
`free_surface`; the bottom plane, used only for a finite bottom, has normal
`(0,0,-1)` and offset `-sea_bottom`. -/
def get_immersed_part (clip : Mesh → Plane → Mesh) (m : Mesh)
    (free_surface : ℚ) (sea_bottom : Option ℚ) : Option Mesh :=
  if decide (m.zmin > free_surface) || (match sea_bottom with
      | some sb => decide (m.zmax < sb)
      | none => false) then
    none
  else if (match sea_bottom with
      | some sb => decide (m.zmin > sb)
      | none => true) && decide (m.zmax < free_surface) then
    some { m with name := m.name ++ "_clipped" }
  else
    let c1 := clip m { normal := (0, 0, 1), c := free_surface }
    let c2 := match sea_bottom with
      | some sb => clip c1 { normal := (0, 0, -1), c := -sb }
      | none => c1
    some { c2.remove_unused_vertices with name := m.name ++ "_clipped" }

end Mesh

/-! ## The healing pipeline (`heal_mesh`)

The five stage bodies live in `mesh_quality.py`, which is not among the
sources; they are modelled from the specification (§4.4).  The composition
itself — cache invalidation followed by the five stages in a fixed order —
is `Mesh.heal_mesh` from `mesh.py`. -/

/-- The face-coordinate tuple as a list of four points. -/
def faceCoordsAsList (fc : FaceCoords) : List Point :=
  [fc.1, fc.2.1, fc.2.2.1, fc.2.2.2]

/-- Modelled from the spec: a face is degenerate (collapsed polygon of zero
area) when its four corners span fewer than three distinct points.  The
source's floating-point area tolerance is modelled by this exact zero-area
collapse criterion. -/
def isDegenerate (fc : FaceCoords) : Bool :=
  decide ((faceCoordsAsList fc).dedup.length < 3)

namespace Mesh

/-- Modelled from the spec: `remove_degenerated_faces` drops the degenerate
faces and keeps the others; mutating the face array invalidates every
cached quantity. -/
def remove_degenerated_faces (m : Mesh) : Mesh :=
  { m with
    faces := m.faces.filter (fun f => !(isDegenerate (m.faceCoords f))),
    internals := Internals.empty }

/-- The representative of a vertex under merging: the first vertex (in scan
order) close to it, the vertex itself when none is. -/
def mergeRep (close : Point → Point → Bool) (m : Mesh) (j : ℕ) : ℕ :=
  match (List.range m.vertices.length).find?
      (fun i => close (m.vertexAt i) (m.vertexAt j)) with
  | some i => i
  | none => j

/-- Modelled from the spec: `merge_duplicates` unifies vertices closer than
a tolerance to one representative — the first vertex (in scan order) close
to them, where the closeness test `close` carries the tolerance — and
remaps all face indices; the merged-away vertices are left in the array for
the unused-vertex pass. -/
def merge_duplicates (close : Point → Point → Bool) (m : Mesh) : Mesh :=
  { m with
    faces := m.faces.map (mapFace (m.mergeRep close)),
    internals := Internals.empty }

end Mesh

/-- Modelled from the spec: a quadrangle-stored face with two identical
indices in a position other than first/last — i.e. one of the adjacent
pairs (0,1), (1,2), (2,3) repeated — is geometrically a triangle and is
rewritten into the canonical triangle encoding (first index repeated as
last). -/
def healTriangleFace (f : Face) : Face :=
  if f.1 = f.2.2.2 then f
  else if f.1 = f.2.1 then (f.1, f.2.2.1, f.2.2.2, f.1)
  else if f.2.1 = f.2.2.1 then (f.1, f.2.1, f.2.2.2, f.1)
  else if f.2.2.1 = f.2.2.2 then (f.1, f.2.1, f.2.2.1, f.1)
  else f

/-- Modelled from the spec: `heal_triangles` rewrites every such face. -/
def Mesh.heal_triangles (m : Mesh) : Mesh :=
  { m with faces := m.faces.map healTriangleFace, internals := Internals.empty }

/-! ### Normal healing: a breadth-first orientation-consistency walk

Modelled from the spec (§4.4 and §4.3): the edges of a face are its
consecutive vertex-index pairs (wrapping; a pair with two equal endpoints is
a degenerate pair, not an edge); two faces are adjacent when they share an
edge regardless of direction; two adjacent faces are consistently oriented
when they traverse a shared edge in opposite directions.  A breadth-first
walk from a seed face assigns each face of a connected component a parity
(`false` = oriented like the seed); the faces on the minority side of each
component are flipped. -/

/-- The directed edges of a face (consecutive pairs, wrapping), with the
degenerate pairs — such as the wrap pair of the triangle encoding —
removed. -/
def faceEdges (f : Face) : List (ℕ × ℕ) :=
  [(f.1, f.2.1), (f.2.1, f.2.2.1), (f.2.2.1, f.2.2.2), (f.2.2.2, f.1)].filter
    (fun e => !(e.1 == e.2))

/-- The two faces share an equally-directed edge (an orientation
inconsistency across that edge). -/
def sameShare (f g : Face) : Bool :=
  (faceEdges f).any (fun e => e ∈ faceEdges g)

/-- The two faces share an oppositely-directed edge (consistent
orientation across that edge). -/
def oppShare (f g : Face) : Bool :=
  (faceEdges f).any (fun e => (e.2, e.1) ∈ faceEdges g)

/-- Face-face adjacency: two distinct faces sharing an edge in either
direction. -/
def Mesh.meshAdj (m : Mesh) (i j : ℕ) : Bool :=
  !(i == j) &&
    (sameShare (m.faces.getD i default) (m.faces.getD j default) ||
     oppShare (m.faces.getD i default) (m.faces.getD j default))

/-- Orientation label of an adjacent pair: `true` when the shared edge is
traversed in the same direction by both faces (inconsistent normals). -/
def Mesh.meshLbl (m : Mesh) (i j : ℕ) : Bool :=
  sameShare (m.faces.getD i default) (m.faces.getD j default)

/-- The neighbours of face `i` in the face-adjacency graph. -/
def neighborsOf (adj : ℕ → ℕ → Bool) (n i : ℕ) : List ℕ :=
  (List.range n).filter (fun j => adj i j)

/-- One breadth-first component walk: the queue holds faces with their
propagated parity; an unvisited face is emitted, its neighbours are pushed
with parity `p XOR label`, and the walk continues on the remaining queue.
Returns the visited faces of this walk (with parities, in visit order) and
the updated visited list. -/
def bfsRun (adj lbl : ℕ → ℕ → Bool) (n : ℕ) :
    ℕ → List (ℕ × Bool) → List ℕ → List (ℕ × Bool) × List ℕ
  | 0, _, vis => ([], vis)
  | _ + 1, [], vis => ([], vis)
  | fuel + 1, (i, p) :: rest, vis =>
    if i ∈ vis then bfsRun adj lbl n fuel rest vis
    else
      let push := (neighborsOf adj n i).map (fun j => (j, xor p (lbl i j)))
      let r := bfsRun adj lbl n fuel (rest ++ push) (i :: vis)
      ((i, p) :: r.1, r.2)

/-- Walks every face in index order, starting a breadth-first component
walk at each not-yet-visited face; returns the list of components. -/
def bfsOuterAux (adj lbl : ℕ → ℕ → Bool) (n : ℕ) :
    List ℕ → List ℕ → List (List (ℕ × Bool)) × List ℕ
  | [], vis => ([], vis)
  | i :: is, vis =>
    if i ∈ vis then bfsOuterAux adj lbl n is vis
    else
      let r := bfsRun adj lbl n (n * n + n + 1) [(i, false)] vis
      let rest := bfsOuterAux adj lbl n is r.2
      (r.1 :: rest.1, rest.2)

/-- The connected components of the face-adjacency graph, each face paired
with its propagated parity relative to the component's seed. -/
def bfsComponents (adj lbl : ℕ → ℕ → Bool) (n : ℕ) : List (List (ℕ × Bool)) :=
  (bfsOuterAux adj lbl n (List.range n) []).1

/-- The minority side of one component: the faces whose parity disagrees
with the majority orientation (on a tie, the side not containing the
seed). -/
def componentFlips (comp : List (ℕ × Bool)) : List ℕ :=
  if (comp.filter (fun x => x.2)).length ≤
      comp.length - (comp.filter (fun x => x.2)).length
  then (comp.filter (fun x => x.2)).map Prod.fst
  else (comp.filter (fun x => !x.2)).map Prod.fst

/-- All faces to be flipped: the minority side of every component. -/
def healFlips (adj lbl : ℕ → ℕ → Bool) (n : ℕ) : List ℕ :=
  ((bfsComponents adj lbl n).map componentFlips).flatten

/-- Reverse the winding of the flagged faces. -/
def flipWhere (flag : ℕ → Bool) (m : Mesh) : Mesh :=
  { m with
    faces := (List.range m.faces.length).map (fun i =>
      if flag i then revFace (m.faces.getD i default) else m.faces.getD i default),
    internals := Internals.empty }

/-- Modelled from the spec: `heal_normals` flips the winding of the faces
inconsistent with the majority orientation of their connected component,
found by the breadth-first consistency walk. -/
def Mesh.heal_normals (m : Mesh) : Mesh :=
  let flips := healFlips m.meshAdj m.meshLbl m.faces.length
  flipWhere (fun i => i ∈ flips) m

/-- The guarded `_remove_faces_properties` call at the start of
`heal_mesh` (removing the keys when present leaves absent keys absent, so
the guard is immaterial). -/
def Mesh.clearFacesProperties (m : Mesh) : Mesh :=
  { m with internals := { m.internals with facesProperties := none } }

/-- `Mesh.heal_mesh(self)` (from `mesh.py`): invalidates the face-property
cache, then runs unused-vertex removal, degenerate-face removal,
duplicate-vertex merging, triangle healing and normal healing, in this
order.  The closeness test of the merging stage (the tolerance) is a
parameter. -/
def Mesh.heal_mesh (close : Point → Point → Bool) (m : Mesh) : Mesh :=
  ((((m.clearFacesProperties.remove_unused_vertices
    ).remove_degenerated_faces
    ).merge_duplicates close
    ).heal_triangles
    ).heal_normals

/-! ## Concrete meshes used as witnesses and counterexamples -/

/-- A unit-square quadrangle mesh: four vertices, one quadrangle face. -/
def quadMesh : Mesh :=
  { vertices := [(0, 0, 0), (1, 0, 0), (1, 1, 0), (0, 1, 0)],
    faces := [(0, 1, 2, 3)], name := "quad", internals := Internals.empty }

/-- The same square mesh with the face properties and surface integrals
cached, as they are after reading `faces_centers` and `volume`. -/
def quadMeshCached : Mesh :=
  { vertices := [(0, 0, 0), (1, 0, 0), (1, 1, 0), (0, 1, 0)],
    faces := [(0, 1, 2, 3)], name := "quad",
    internals :=
      { facesProperties := some
          { faces_areas := [1], faces_centers := [(1/2, 1/2, 0)],
            faces_normals := [(0, 0, 1)], faces_radiuses := [1] },
        surfaceIntegrals := some [0, 0, 0],
        trianglesQuadrangles := none, connectivityData := none } }

/-- Exact-duplicate closeness: the merge tolerance shrunk to coincidence
(`close p q` iff the two vertices coincide). -/
def closeExact : Point → Point → Bool := fun p q => p == q

/-- A mesh whose second face is a collapsed (zero-area) quadrangle that is
the only user of the fourth vertex: degenerate-face removal orphans that
vertex after the unused-vertex pass has already run. -/
def orphanMesh : Mesh :=
  { vertices := [(0, 0, 0), (1, 0, 0), (0, 1, 0), (5, 5, 5)],
    faces := [(0, 1, 2, 0), (3, 3, 3, 3)], name := "orphan",
    internals := Internals.empty }

/-- A single-triangle mesh that is already healthy. -/
def triMesh : Mesh :=
  { vertices := [(0, 0, 0), (1, 0, 0), (0, 1, 0)],
    faces := [(0, 1, 2, 0)], name := "tri", internals := Internals.empty }

/-- Coordinate lookup of a face's four indices in a standalone vertex list
(the same reading as `Mesh.faceCoords`, for the array being built by
`from_set_of_faces`). -/
def coordsAt (vs : List Point) (f : Face) : FaceCoords :=
  (vs.getD f.1 (0, 0, 0), vs.getD f.2.1 (0, 0, 0),
   vs.getD f.2.2.1 (0, 0, 0), vs.getD f.2.2.2 (0, 0, 0))

-- (end of definitions)

/-! ## General-purpose lemmas -/

theorem revFace_revFace (f : Face) : revFace (revFace f) = f := rfl

theorem vneg_vneg (p : Point) : vneg (vneg p) = p := by
  obtain ⟨x, y, z⟩ := p
  simp [vneg]

/-- Reading every position of a list through `getD` reproduces the list. -/
theorem map_getD_range {α : Type} (l : List α) (d : α) :
    (List.range l.length).map (fun i => l.getD i d) = l := by
  induction l with
  | nil => rfl
  | cons a t ih =>
    rw [List.length_cons, List.range_succ_eq_map, List.map_cons, List.map_map]
    exact congrArg (a :: ·) ih

/-- Counting positions of the index range through a predicate on the entries
is the same as filtering the list itself. -/
theorem length_filter_range {α : Type} (l : List α) (d : α) (p : α → Bool) :
    ((List.range l.length).filter (fun i => p (l.getD i d))).length =
      (l.filter p).length := by
  rw [← List.countP_eq_length_filter, ← List.countP_eq_length_filter]
  conv_rhs => rw [← map_getD_range l d]
  rw [List.countP_map]
  rfl

/-- Structural description of `flip_normals`: faces reversed, cached normals
negated, surface integrals removed, the other cache entries untouched. -/
theorem flip_normals_def (m : Mesh) :
    m.flip_normals =
      { vertices := m.vertices, faces := m.faces.map revFace, name := m.name,
        internals :=
          { facesProperties := m.internals.facesProperties.map (fun fp =>
              { fp with faces_normals := fp.faces_normals.map vneg }),
            surfaceIntegrals := none,
            trianglesQuadrangles := m.internals.trianglesQuadrangles,
            connectivityData := m.internals.connectivityData } } := by
  obtain ⟨v, f, n, fp, si, tq, cd⟩ := m
  unfold Mesh.flip_normals
  cases fp <;> cases si <;> rfl

theorem negNormals_negNormals (fp : FacesProperties) :
    ({ { fp with faces_normals := fp.faces_normals.map vneg } with
        faces_normals := (fp.faces_normals.map vneg).map vneg } : FacesProperties) = fp := by
  obtain ⟨a, c, nrm, r⟩ := fp
  simp only [List.map_map]
  have h : vneg ∘ vneg = id := funext vneg_vneg
  simp [h]

/-! ## Claim theorems -/

/-- **C7**: for every mesh, `nb_triangles + nb_quadrangles = nb_faces`; the
triangle id list is exactly the list of face indices whose first and last
vertex indices coincide, and the quadrangle id list is exactly its
complement: the two lists partition the face indices. -/
theorem C7_triangles_quadrangles_partition (m : Mesh) :
    m.nb_triangles + m.nb_quadrangles = m.nb_faces ∧
    (∀ i, i ∈ m.triangles_ids ↔ i < m.nb_faces ∧ m.is_triangle i = true) ∧
    (∀ i, i ∈ m.quadrangles_ids ↔ i < m.nb_faces ∧ ¬ m.is_triangle i = true) := by
  refine ⟨?_, ?_, ?_⟩
  · have h := List.length_eq_length_filter_add
      (l := List.range m.faces.length) (fun i => m.is_triangle i)
    rw [List.length_range] at h
    exact h.symm
  · intro i
    simp [Mesh.triangles_ids, List.mem_filter, List.mem_range, Mesh.nb_faces,
      and_comm]
  · intro i
    simp [Mesh.quadrangles_ids, List.mem_filter, List.mem_range, Mesh.nb_faces,
      and_comm]

/-- **C8**: `flip_normals` reverses the vertex order of every face and
negates the cached normals (when the face-property cache is valid, i.e.
through `Option.map`); applying it twice is the identity on the face array
and on the cached normals. -/
theorem C8_flip_normals_involutive (m : Mesh) :
    m.flip_normals.faces = m.faces.map revFace ∧
    m.flip_normals.internals.facesProperties =
      m.internals.facesProperties.map (fun fp =>
        { fp with faces_normals := fp.faces_normals.map vneg }) ∧
    m.flip_normals.flip_normals.faces = m.faces ∧
    m.flip_normals.flip_normals.internals.facesProperties =
      m.internals.facesProperties := by
  rw [flip_normals_def, flip_normals_def]
  refine ⟨rfl, rfl, ?_, ?_⟩
  · show (m.faces.map revFace).map revFace = m.faces
    rw [List.map_map]
    have h : revFace ∘ revFace = id := funext revFace_revFace
    simp [h]
  · show Option.map _ (Option.map _ _) = _
    rw [Option.map_map]
    cases hfp : m.internals.facesProperties with
    | none => rfl
    | some fp =>
      simp only [Option.map_some']
      exact congrArg some (negNormals_negNormals fp)

/-- **C1** (code bug): `translate` adds the vector to every vertex, but the
statement `self.vertices += vector` goes through the `vertices` property
setter, which clears the whole `__internals__` cache; the subsequent branch
that would shift the cached face centers therefore never fires.  At a mesh
whose face properties and surface integrals are cached, translating by
`(1,0,0)` leaves the cache empty instead of keeping the shifted centers. -/
theorem C1_translate_clears_cache_at_failing_input :
    quadMeshCached.internals.facesProperties.isSome = true ∧
    (quadMeshCached.translate (1, 0, 0)).vertices =
      [(1, 0, 0), (2, 0, 0), (2, 1, 0), (1, 1, 0)] ∧
    (quadMeshCached.translate (1, 0, 0)).internals = Internals.empty ∧
    (quadMeshCached.translate (1, 0, 0)).internals.facesProperties = none := by
  refine ⟨rfl, ?_, rfl, rfl⟩
  show List.map _ _ = _
  norm_num [vadd, quadMeshCached]

/-- **C2** (counterexample): on the unit-square quadrangle `(0 1 2 3)`,
`triangulate_quadrangles` rewrites the original slot as the triangle
`(0 2 3)` (encoded `(0,2,3,0)`) and appends `(0 1 2)` (encoded
`(0,1,2,0)`) — not, as the claim states, the slot as `(0 1 2)` with
`(0 2 3)` appended. -/
theorem C2_triangulate_quadrangles_counterexample :
    quadMesh.triangulate_quadrangles.faces = [(0, 2, 3, 0), (0, 1, 2, 0)] ∧
    quadMesh.triangulate_quadrangles.faces ≠ [(0, 1, 2, 0), (0, 2, 3, 0)] := by
  decide

theorem isTriangleFace_splitQuadInPlace (f : Face) :
    isTriangleFace (splitQuadInPlace f) = true := by
  simp [isTriangleFace, splitQuadInPlace]

theorem isTriangleFace_splitQuadAppended (f : Face) :
    isTriangleFace (splitQuadAppended f) = true := by
  simp [isTriangleFace, splitQuadAppended]

/-- **C2** (amended): `triangulate_quadrangles` splits each quadrangle
`(v0 v1 v2 v3)` into the triangles `(v0 v1 v2)` and `(v0 v2 v3)`, rewriting
the original slot in place as the triangle `(v0 v2 v3)` and appending
`(v0 v1 v2)` as a new face (in quadrangle order); afterwards every face is
in triangle encoding, all caches are cleared, and the face count equals the
old face count plus the old quadrangle count. -/
theorem C2_triangulate_quadrangles_amended (m : Mesh) :
    m.triangulate_quadrangles.nb_faces = m.nb_faces + m.nb_quadrangles ∧
    m.triangulate_quadrangles.internals = Internals.empty ∧
    (∀ f ∈ m.triangulate_quadrangles.faces, isTriangleFace f = true) ∧
    (∀ i, i < m.nb_faces → m.is_triangle i = true →
      m.triangulate_quadrangles.faces.getD i default = m.faces.getD i default) ∧
    (∀ i, i < m.nb_faces → ¬ m.is_triangle i = true →
      m.triangulate_quadrangles.faces.getD i default =
        splitQuadInPlace (m.faces.getD i default)) ∧
    m.triangulate_quadrangles.faces.drop m.nb_faces =
      (m.faces.filter (fun f => !(isTriangleFace f))).map splitQuadAppended := by
  have hmod : ∀ i (hi : i < m.faces.length),
      m.triangulate_quadrangles.faces.getD i default =
        (if isTriangleFace m.faces[i] then m.faces[i]
         else splitQuadInPlace m.faces[i]) := by
    intro i hi
    have hi' : i < (m.faces.map (fun f =>
        if isTriangleFace f then f else splitQuadInPlace f)).length := by
      simpa using hi
    show ((m.faces.map _) ++ _).getD i default = _
    rw [List.getD_append _ _ _ _ hi', List.getD_eq_getElem _ _ hi',
      List.getElem_map]
  refine ⟨?_, rfl, ?_, ?_, ?_, ?_⟩
  · show (List.map _ _ ++ List.map _ _).length = _
    rw [List.length_append, List.length_map, List.length_map]
    have := length_filter_range m.faces (default) (fun f => !(isTriangleFace f))
    show m.faces.length + _ = m.faces.length + (List.filter _ _).length
    rw [← this]
    rfl
  · intro f hf
    rcases List.mem_append.mp hf with h | h
    · rcases List.mem_map.mp h with ⟨g, _, rfl⟩
      by_cases htri : isTriangleFace g
      · simp [htri]
      · simp [htri, isTriangleFace_splitQuadInPlace]
    · rcases List.mem_map.mp h with ⟨g, _, rfl⟩
      exact isTriangleFace_splitQuadAppended g
  · intro i hi htri
    have hi' : i < m.faces.length := hi
    rw [hmod i hi']
    have : isTriangleFace m.faces[i] = true := by
      have : m.faces.getD i default = m.faces[i] := List.getD_eq_getElem _ _ hi'
      unfold Mesh.is_triangle at htri
      rwa [this] at htri
    rw [if_pos this, List.getD_eq_getElem _ _ hi']
  · intro i hi htri
    have hi' : i < m.faces.length := hi
    rw [hmod i hi']
    have : ¬ isTriangleFace m.faces[i] = true := by
      have h2 : m.faces.getD i default = m.faces[i] := List.getD_eq_getElem _ _ hi'
      unfold Mesh.is_triangle at htri
      rwa [h2] at htri
    rw [if_neg this, List.getD_eq_getElem _ _ hi']
  · show ((m.faces.map _) ++ _).drop _ = _
    have hlen : (m.faces.map (fun f =>
        if isTriangleFace f then f else splitQuadInPlace f)).length = m.nb_faces := by
      simp [Mesh.nb_faces]
    rw [← hlen, List.drop_left]

/-- Witness for the amended C2 at the concrete square quadrangle mesh. -/
theorem C2_triangulate_quadrangles_amended_witness :
    quadMesh.triangulate_quadrangles.faces.getD 0 default =
      splitQuadInPlace (quadMesh.faces.getD 0 default) :=
  (C2_triangulate_quadrangles_amended quadMesh).2.2.2.2.1 0 (by decide) (by decide)

/-- **C6**: mesh equality (`__eq__`) holds iff the two meshes have the same
set of faces, each face represented as its tuple of vertex-coordinate
triples; consequently it is reflexive, symmetric, invariant under any
permutation of the face array, and invariant under any renumbering of the
vertex array that preserves the face-coordinate tuples. -/
theorem C6_mesh_equality :
    (∀ m1 m2 : Mesh, Mesh.meshEq m1 m2 ↔ m1.as_set_of_faces = m2.as_set_of_faces) ∧
    (∀ m : Mesh, Mesh.meshEq m m) ∧
    (∀ m1 m2 : Mesh, Mesh.meshEq m1 m2 → Mesh.meshEq m2 m1) ∧
    (∀ (v : List Point) (f1 f2 : List Face) (n1 n2 : String) (i1 i2 : Internals),
      f1.Perm f2 →
      Mesh.meshEq { vertices := v, faces := f1, name := n1, internals := i1 }
                  { vertices := v, faces := f2, name := n2, internals := i2 }) ∧
    (∀ (m : Mesh) (σ : ℕ → ℕ) (v' : List Point) (n' : String) (i' : Internals),
      (∀ f ∈ m.faces, ∀ j ∈ faceIndexList f, v'.getD (σ j) (0, 0, 0) = m.vertexAt j) →
      Mesh.meshEq { vertices := v', faces := m.faces.map (mapFace σ),
                    name := n', internals := i' } m) := by
  refine ⟨fun m1 m2 => Iff.rfl, fun m => rfl, fun m1 m2 h => h.symm, ?_, ?_⟩
  · intro v f1 f2 n1 n2 i1 i2 hperm
    exact List.toFinset_eq_of_perm _ _ (hperm.map _)
  · intro m σ v' n' i' hren
    show (List.map _ (m.faces.map (mapFace σ))).toFinset = _
    rw [List.map_map]
    have hmap : ∀ f ∈ m.faces,
        (Mesh.faceCoords { vertices := v', faces := m.faces.map (mapFace σ),
                           name := n', internals := i' } ∘ mapFace σ) f =
          Mesh.faceCoords m f := by
      intro f hf
      have h1 := hren f hf f.1 (by simp [faceIndexList])
      have h2 := hren f hf f.2.1 (by simp [faceIndexList])
      have h3 := hren f hf f.2.2.1 (by simp [faceIndexList])
      have h4 := hren f hf f.2.2.2 (by simp [faceIndexList])
      simp only [Function.comp_apply, Mesh.faceCoords, mapFace, Mesh.vertexAt] at *
      rw [h1, h2, h3, h4]
    rw [List.map_congr_left hmap]
    rfl

/-- Witness for C6 at concrete meshes: the same two triangles listed in the
two possible orders, with different names and cache states, are equal. -/
theorem C6_mesh_equality_witness :
    Mesh.meshEq
      { vertices := [(0, 0, 0), (1, 0, 0), (0, 1, 0)],
        faces := [(0, 1, 2, 0), (1, 2, 0, 1)], name := "a",
        internals := Internals.empty }
      { vertices := [(0, 0, 0), (1, 0, 0), (0, 1, 0)],
        faces := [(1, 2, 0, 1), (0, 1, 2, 0)], name := "b",
        internals := Internals.empty } :=
  C6_mesh_equality.2.2.2.1 [(0, 0, 0), (1, 0, 0), (0, 1, 0)]
    [(0, 1, 2, 0), (1, 2, 0, 1)] [(1, 2, 0, 1), (0, 1, 2, 0)] "a" "b"
    Internals.empty Internals.empty (List.Perm.swap _ _ _)

/-- **C5**: mesh construction succeeds exactly when every raw face entry is
a non-negative integral value, every vertex row has three entries, every
face row has four entries, and every face index is strictly below the
number of vertices; otherwise it fails with a validation error and no mesh
is constructed. -/
theorem C5_construction_validation (vertices faces : List (List ℚ)) (name : String) :
    (mkMesh vertices faces name).isOk = true ↔
      (facesEntriesOk faces ∧ verticesShapeOk vertices ∧ facesShapeOk faces ∧
        facesIndicesOk vertices faces) := by
  unfold mkMesh
  split_ifs with h1 h2 h3 h4 <;> simp_all [Except.isOk, Except.toBool]

theorem faceIndexList_mapFace (g : ℕ → ℕ) (f : Face) :
    faceIndexList (mapFace g f) = (faceIndexList f).map g := rfl

/-- The interior of `extract_faces`: the list of selected face rows. -/
theorem extract_selected_mem {m : Mesh} {ids : List ℕ}
    (hids : ∀ i ∈ ids, i < m.nb_faces) :
    ∀ f ∈ ids.map (fun i => m.faces.getD i default), f ∈ m.faces := by
  intro f hf
  rcases List.mem_map.mp hf with ⟨i, hi, rfl⟩
  have hlt : i < m.faces.length := hids i hi
  rw [List.getD_eq_getElem _ _ hlt]
  exact List.getElem_mem _

/-- **C9**: for valid face indices on a well-formed mesh, `extract_faces`
returns a mesh whose vertex count is the number of distinct vertex indices
referenced by the selected faces, whose faces are the selected faces with
indices remapped into the dense range `0..k-1`, preserving each face's
vertex coordinates, together with the list `id_v` mapping new vertex
indices back to old ones. -/
theorem C9_extract_faces (m : Mesh) (ids : List ℕ)
    (hids : ∀ i ∈ ids, i < m.nb_faces)
    (hfaces : ∀ f ∈ m.faces, ∀ j ∈ faceIndexList f, j < m.nb_vertices) :
    (m.extract_faces ids).1.nb_vertices =
      (((ids.map (fun i => m.faces.getD i default)).map faceIndexList).flatten).toFinset.card ∧
    (m.extract_faces ids).1.nb_faces = ids.length ∧
    (m.extract_faces ids).1.facesCoordsList =
      (ids.map (fun i => m.faces.getD i default)).map m.faceCoords ∧
    (∀ f ∈ (m.extract_faces ids).1.faces, ∀ j ∈ faceIndexList f,
      j < (m.extract_faces ids).1.nb_vertices) ∧
    (m.extract_faces ids).2.length = (m.extract_faces ids).1.nb_vertices ∧
    (∀ j, j < (m.extract_faces ids).2.length →
      (m.extract_faces ids).1.vertexAt j = m.vertexAt ((m.extract_faces ids).2.getD j 0)) := by
  classical
  set selected := ids.map (fun i => m.faces.getD i default) with hsel
  set used : ℕ → Bool := fun vi => selected.any (fun f => vi ∈ faceIndexList f) with hused
  set id_v := (List.range m.vertices.length).filter used with hidv
  have hfst_vertices : (m.extract_faces ids).1.vertices = id_v.map m.vertexAt := rfl
  have hfst_faces : (m.extract_faces ids).1.faces =
      selected.map (mapFace (fun i => id_v.indexOf i)) := rfl
  have hsnd : (m.extract_faces ids).2 = id_v := rfl
  -- membership characterisation of `id_v`
  have hmem_idv : ∀ j, j ∈ id_v ↔ (j < m.vertices.length ∧ ∃ f ∈ selected, j ∈ faceIndexList f) := by
    intro j
    rw [hidv, List.mem_filter, List.mem_range, hused]
    simp only [List.any_eq_true, decide_eq_true_eq]
  -- every index appearing in a selected face is in `id_v`
  have hsel_idx_mem : ∀ f ∈ selected, ∀ j ∈ faceIndexList f, j ∈ id_v := by
    intro f hf j hj
    refine (hmem_idv j).mpr ⟨?_, f, hf, hj⟩
    exact hfaces f (extract_selected_mem hids f hf) j hj
  -- looking a member of `id_v` back up through `indexOf` is the identity
  have hlookup : ∀ j ∈ id_v,
      (m.extract_faces ids).1.vertexAt (id_v.indexOf j) = m.vertexAt j := by
    intro j hj
    have hidx : id_v.indexOf j < id_v.length := List.indexOf_lt_length.mpr hj
    have hidx' : id_v.indexOf j < (id_v.map m.vertexAt).length := by simpa using hidx
    show (id_v.map m.vertexAt).getD (id_v.indexOf j) (0, 0, 0) = m.vertexAt j
    rw [List.getD_eq_getElem _ _ hidx', List.getElem_map]
    rw [List.getElem_indexOf hidx]
  refine ⟨?_, ?_, ?_, ?_, ?_, ?_⟩
  · -- vertex count = number of distinct referenced indices
    show (id_v.map m.vertexAt).length = _
    rw [List.length_map]
    have hnodup : id_v.Nodup := (List.nodup_range _).filter _
    have hsetseq : id_v.toFinset = ((selected.map faceIndexList).flatten).toFinset := by
      apply List.toFinset.ext
      intro j
      rw [hmem_idv j, List.mem_flatten]
      constructor
      · rintro ⟨-, f, hf, hj⟩
        exact ⟨faceIndexList f, List.mem_map_of_mem _ hf, hj⟩
      · rintro ⟨l, hl, hj⟩
        rcases List.mem_map.mp hl with ⟨f, hf, rfl⟩
        exact ⟨hfaces f (extract_selected_mem hids f hf) j hj, f, hf, hj⟩
    rw [← List.toFinset_card_of_nodup hnodup, hsetseq]
  · -- face count = number of selected ids
    show (selected.map _).length = ids.length
    rw [List.length_map, hsel, List.length_map]
  · -- face coordinates preserved
    show (selected.map (mapFace (fun i => id_v.indexOf i))).map
        ((m.extract_faces ids).1.faceCoords) = selected.map m.faceCoords
    rw [List.map_map]
    apply List.map_congr_left
    intro sf hsf
    have h1 := hlookup sf.1 (hsel_idx_mem sf hsf sf.1 (by simp [faceIndexList]))
    have h2 := hlookup sf.2.1 (hsel_idx_mem sf hsf sf.2.1 (by simp [faceIndexList]))
    have h3 := hlookup sf.2.2.1 (hsel_idx_mem sf hsf sf.2.2.1 (by simp [faceIndexList]))
    have h4 := hlookup sf.2.2.2 (hsel_idx_mem sf hsf sf.2.2.2 (by simp [faceIndexList]))
    show ((m.extract_faces ids).1.vertexAt (id_v.indexOf sf.1),
          (m.extract_faces ids).1.vertexAt (id_v.indexOf sf.2.1),
          (m.extract_faces ids).1.vertexAt (id_v.indexOf sf.2.2.1),
          (m.extract_faces ids).1.vertexAt (id_v.indexOf sf.2.2.2)) =
        (m.vertexAt sf.1, m.vertexAt sf.2.1, m.vertexAt sf.2.2.1, m.vertexAt sf.2.2.2)
    rw [h1, h2, h3, h4]
  · -- remapped indices are dense: all below the new vertex count
    intro f hf j hj
    rw [hfst_faces] at hf
    rcases List.mem_map.mp hf with ⟨g, hg, rfl⟩
    rw [faceIndexList_mapFace] at hj
    rcases List.mem_map.mp hj with ⟨j0, hj0, rfl⟩
    have hj0v : j0 ∈ id_v := hsel_idx_mem g hg j0 hj0
    show id_v.indexOf j0 < (id_v.map m.vertexAt).length
    rw [List.length_map]
    exact List.indexOf_lt_length.mpr hj0v
  · -- the returned index list has one entry per new vertex
    rw [hsnd]
    show id_v.length = (id_v.map m.vertexAt).length
    rw [List.length_map]
  · -- and maps each new vertex index to the old one
    intro j hj
    rw [hsnd] at hj
    have hj' : j < (id_v.map m.vertexAt).length := by simpa using hj
    show (id_v.map m.vertexAt).getD j (0, 0, 0) = m.vertexAt (id_v.getD j 0)
    rw [List.getD_eq_getElem _ _ hj', List.getElem_map, List.getD_eq_getElem _ _ hj]

/-- Witness for C9: extracting the single face of the square mesh keeps all
four referenced vertices. -/
theorem C9_extract_faces_witness :
    (quadMesh.extract_faces [0]).1.nb_vertices =
      ((([0].map (fun i => quadMesh.faces.getD i default)).map faceIndexList).flatten).toFinset.card :=
  (C9_extract_faces quadMesh [0] (by decide) (by decide)).1

theorem foldr_min_le_foldr_max (l : List ℚ) {a b : ℚ} (h : a ≤ b) :
    l.foldr min a ≤ l.foldr max b := by
  induction l with
  | nil => exact h
  | cons x t ih =>
    calc min x (t.foldr min a) ≤ x := min_le_left _ _
    _ ≤ max x (t.foldr max b) := le_max_left _ _

theorem zmin_le_zmax (m : Mesh) : m.zmin ≤ m.zmax :=
  foldr_min_le_foldr_max _ le_rfl

/-- **C3**: on a mesh with a nonempty vertex array, `get_immersed_part` with
the free surface strictly above the mesh's maximum z and the sea bottom
strictly below its minimum z (or infinite) returns an unmodified renamed
copy, for every clipper (the clipper is not invoked); with the free surface
strictly below the minimum z it returns no mesh; otherwise it clips against
the free-surface plane `((0,0,1), fs)`, then against the bottom plane
`((0,0,-1), -sb)` when the bottom is finite, removes the unused vertices and
renames the result. -/
theorem C3_get_immersed_part (clip : Mesh → Plane → Mesh) (m : Mesh)
    (fs : ℚ) (sb : Option ℚ) (_hne : m.vertices ≠ []) :
    ((m.zmax < fs ∧ ∀ b ∈ sb, b < m.zmin) →
      m.get_immersed_part clip fs sb =
        some { m with name := m.name ++ "_clipped" }) ∧
    (fs < m.zmin → m.get_immersed_part clip fs sb = none) ∧
    (¬ (m.zmin > fs ∨ ∃ b ∈ sb, m.zmax < b) →
     ¬ ((∀ b ∈ sb, m.zmin > b) ∧ m.zmax < fs) →
      m.get_immersed_part clip fs sb =
        some { (match sb with
                | some b => clip (clip m { normal := (0, 0, 1), c := fs })
                    { normal := (0, 0, -1), c := -b }
                | none => clip m { normal := (0, 0, 1), c := fs }
                ).remove_unused_vertices with
               name := m.name ++ "_clipped" }) := by
  have hzle := zmin_le_zmax m
  refine ⟨?_, ?_, ?_⟩
  · rintro ⟨hfs, hsb⟩
    cases sb with
    | none =>
      have h1 : ¬ (m.zmin > fs) := by push_neg; linarith
      simp [Mesh.get_immersed_part, h1, hfs]
    | some b =>
      have hb : b < m.zmin := hsb b rfl
      have h1 : ¬ (m.zmin > fs) := by push_neg; linarith
      have h2 : ¬ (m.zmax < b) := by push_neg; linarith
      have h3 : m.zmin > b := hb
      simp [Mesh.get_immersed_part, h1, h2, h3, hfs]
  · intro hdry
    have h1 : m.zmin > fs := hdry
    cases sb with
    | none => simp [Mesh.get_immersed_part, h1]
    | some b => simp [Mesh.get_immersed_part, h1]
  · intro hnot1 hnot2
    cases sb with
    | none =>
      have h1 : ¬ (m.zmin > fs) := fun h => hnot1 (Or.inl h)
      have h2 : ¬ (m.zmax < fs) := fun h =>
        hnot2 ⟨fun b hb => absurd hb (by simp), h⟩
      simp [Mesh.get_immersed_part, h1, h2]
    | some b =>
      have h1 : ¬ (m.zmin > fs) := fun h => hnot1 (Or.inl h)
      have h2 : ¬ (m.zmax < b) := fun h => hnot1 (Or.inr ⟨b, rfl, h⟩)
      by_cases h3 : m.zmin > b
      · have h4 : ¬ (m.zmax < fs) := fun h =>
          hnot2 ⟨fun b' hb' => by
            obtain rfl := Option.mem_some_iff.mp hb'
            exact h3, h⟩
        simp [Mesh.get_immersed_part, h1, h2, h3, h4]
      · simp [Mesh.get_immersed_part, h1, h2, h3]

/-- Witness for C3: a mesh lying entirely below a free surface at `z = 1`
with no sea bottom is returned as an unmodified renamed copy. -/
theorem C3_get_immersed_part_witness :
    quadMesh.get_immersed_part (fun m _ => m) 1 none =
      some { quadMesh with name := quadMesh.name ++ "_clipped" } :=
  (C3_get_immersed_part (fun m _ => m) quadMesh 1 none (by decide)).1
    ⟨by decide, by simp⟩

/-- **C4** (counterexample): `heal_mesh` is not idempotent.  Unused-vertex
removal runs *first*, so a vertex whose only referencing face is removed by
the degenerate-face stage stays in the array after one healing pass and is
removed (with the face indices renumbered) only by the next pass: on
`orphanMesh` the first pass keeps all four vertices while the second drops
the orphaned one. -/
theorem C4_heal_mesh_counterexample :
    (orphanMesh.heal_mesh closeExact).vertices =
      [(0, 0, 0), (1, 0, 0), (0, 1, 0), (5, 5, 5)] ∧
    ((orphanMesh.heal_mesh closeExact).heal_mesh closeExact).vertices =
      [(0, 0, 0), (1, 0, 0), (0, 1, 0)] ∧
    ¬ ((orphanMesh.heal_mesh closeExact).heal_mesh closeExact =
        orphanMesh.heal_mesh closeExact) := by
  refine ⟨by decide, by decide, by decide⟩

/-! ## The vertex-interning loop of `from_set_of_faces` -/

theorem addVertex_fst (acc : List Point) (v : Point) :
    ∃ ext, (addVertex acc v).1 = acc ++ ext := by
  unfold addVertex
  by_cases h : v ∈ acc
  · exact ⟨[], by simp [h]⟩
  · exact ⟨[v], by simp [h]⟩

theorem indexOfV_lt {acc : List Point} {v : Point} (h : v ∈ acc) :
    indexOfV acc v < acc.length := by
  induction acc with
  | nil => cases h
  | cons w t ih =>
    unfold indexOfV
    by_cases hw : w = v
    · simp [hw]
    · rcases List.mem_cons.mp h with h' | h'
      · exact absurd h'.symm hw
      · simpa [hw] using ih h'

theorem indexOfV_getD {acc : List Point} {v : Point} (h : v ∈ acc) :
    acc.getD (indexOfV acc v) (0, 0, 0) = v := by
  induction acc with
  | nil => cases h
  | cons w t ih =>
    unfold indexOfV
    by_cases hw : w = v
    · simp [hw]
    · rcases List.mem_cons.mp h with h' | h'
      · exact absurd h'.symm hw
      · simpa [hw] using ih h'

theorem addVertex_lt (acc : List Point) (v : Point) :
    (addVertex acc v).2 < (addVertex acc v).1.length := by
  unfold addVertex
  by_cases h : v ∈ acc
  · simp only [if_pos h]
    exact indexOfV_lt h
  · simp [if_neg h]

theorem addVertex_getD (acc : List Point) (v : Point) :
    (addVertex acc v).1.getD (addVertex acc v).2 (0, 0, 0) = v := by
  unfold addVertex
  by_cases h : v ∈ acc
  · simp only [if_pos h]
    exact indexOfV_getD h
  · simp only [if_neg h]
    rw [List.getD_append_right _ _ _ _ le_rfl]
    simp

theorem coordsAt_append (vs ext : List Point) (f : Face)
    (h : ∀ j ∈ faceIndexList f, j < vs.length) :
    coordsAt (vs ++ ext) f = coordsAt vs f := by
  unfold coordsAt
  rw [List.getD_append _ _ _ _ (h f.1 (by simp [faceIndexList])),
    List.getD_append _ _ _ _ (h f.2.1 (by simp [faceIndexList])),
    List.getD_append _ _ _ _ (h f.2.2.1 (by simp [faceIndexList])),
    List.getD_append _ _ _ _ (h f.2.2.2 (by simp [faceIndexList]))]

/-- An already-interned vertex keeps its index and stored value when a
further vertex is interned. -/
theorem addVertex_stable (acc : List Point) (v : Point) {i : ℕ} {w : Point}
    (hi : i < acc.length) (hw : acc.getD i (0, 0, 0) = w) :
    i < (addVertex acc v).1.length ∧ (addVertex acc v).1.getD i (0, 0, 0) = w := by
  obtain ⟨ext, he⟩ := addVertex_fst acc v
  refine ⟨?_, ?_⟩
  · rw [he, List.length_append]
    omega
  · rw [he, List.getD_append _ _ _ _ hi]
    exact hw

theorem addFaceCoords_spec (acc : List Point) (fc : FaceCoords) :
    (∃ ext, (addFaceCoords acc fc).1 = acc ++ ext) ∧
    (∀ j ∈ faceIndexList (addFaceCoords acc fc).2,
      j < (addFaceCoords acc fc).1.length) ∧
    coordsAt (addFaceCoords acc fc).1 (addFaceCoords acc fc).2 = fc := by
  obtain ⟨v1, v2, v3, v4⟩ := fc
  obtain ⟨e1, he1⟩ := addVertex_fst acc v1
  obtain ⟨e2, he2⟩ := addVertex_fst (addVertex acc v1).1 v2
  obtain ⟨e3, he3⟩ := addVertex_fst (addVertex (addVertex acc v1).1 v2).1 v3
  obtain ⟨e4, he4⟩ :=
    addVertex_fst (addVertex (addVertex (addVertex acc v1).1 v2).1 v3).1 v4
  -- index 1, pushed through the later internments
  have s1a := addVertex_stable (addVertex acc v1).1 v2
    (addVertex_lt acc v1) (addVertex_getD acc v1)
  have s1b := addVertex_stable _ v3 s1a.1 s1a.2
  have s1c := addVertex_stable _ v4 s1b.1 s1b.2
  -- index 2
  have s2a := addVertex_stable _ v3
    (addVertex_lt (addVertex acc v1).1 v2) (addVertex_getD (addVertex acc v1).1 v2)
  have s2b := addVertex_stable _ v4 s2a.1 s2a.2
  -- index 3
  have s3a := addVertex_stable _ v4
    (addVertex_lt (addVertex (addVertex acc v1).1 v2).1 v3)
    (addVertex_getD (addVertex (addVertex acc v1).1 v2).1 v3)
  -- index 4
  have s4L := addVertex_lt (addVertex (addVertex (addVertex acc v1).1 v2).1 v3).1 v4
  have s4G := addVertex_getD (addVertex (addVertex (addVertex acc v1).1 v2).1 v3).1 v4
  refine ⟨⟨e1 ++ (e2 ++ (e3 ++ e4)), ?_⟩, ?_, ?_⟩
  · show (addVertex (addVertex (addVertex (addVertex acc v1).1 v2).1 v3).1 v4).1 = _
    rw [he4, he3, he2, he1]
    simp [List.append_assoc]
  · intro j hj
    have hj' : j ∈ [(addVertex acc v1).2,
        (addVertex (addVertex acc v1).1 v2).2,
        (addVertex (addVertex (addVertex acc v1).1 v2).1 v3).2,
        (addVertex (addVertex (addVertex (addVertex acc v1).1 v2).1 v3).1 v4).2] := hj
    show j < (addVertex (addVertex (addVertex (addVertex acc v1).1 v2).1 v3).1 v4).1.length
    simp only [List.mem_cons, List.not_mem_nil, or_false] at hj'
    rcases hj' with h | h | h | h
    · exact h ▸ s1c.1
    · exact h ▸ s2b.1
    · exact h ▸ s3a.1
    · exact h ▸ s4L
  · show ((addVertex (addVertex (addVertex (addVertex acc v1).1 v2).1 v3).1 v4).1.getD
        (addVertex acc v1).2 (0, 0, 0),
      (addVertex (addVertex (addVertex (addVertex acc v1).1 v2).1 v3).1 v4).1.getD
        (addVertex (addVertex acc v1).1 v2).2 (0, 0, 0),
      (addVertex (addVertex (addVertex (addVertex acc v1).1 v2).1 v3).1 v4).1.getD
        (addVertex (addVertex (addVertex acc v1).1 v2).1 v3).2 (0, 0, 0),
      (addVertex (addVertex (addVertex (addVertex acc v1).1 v2).1 v3).1 v4).1.getD
        (addVertex (addVertex (addVertex (addVertex acc v1).1 v2).1 v3).1 v4).2 (0, 0, 0))
      = (v1, v2, v3, v4)
    rw [s1c.2, s2b.2, s3a.2, s4G]

theorem buildFromFaces_spec (l : List FaceCoords) : ∀ (acc : List Point),
    (∃ ext, (buildFromFaces acc l).1 = acc ++ ext) ∧
    ((buildFromFaces acc l).2.map (coordsAt (buildFromFaces acc l).1)) = l := by
  induction l with
  | nil =>
    intro acc
    exact ⟨⟨[], by simp [buildFromFaces]⟩, rfl⟩
  | cons fc rest ih =>
    intro acc
    obtain ⟨⟨e1, he1⟩, hb, hco⟩ := addFaceCoords_spec acc fc
    obtain ⟨⟨e2, he2⟩, hmap⟩ := ih (addFaceCoords acc fc).1
    have hfst : (buildFromFaces acc (fc :: rest)).1 =
        (buildFromFaces (addFaceCoords acc fc).1 rest).1 := rfl
    have hsnd : (buildFromFaces acc (fc :: rest)).2 =
        (addFaceCoords acc fc).2 :: (buildFromFaces (addFaceCoords acc fc).1 rest).2 := rfl
    refine ⟨⟨e1 ++ e2, ?_⟩, ?_⟩
    · rw [hfst, he2, he1, List.append_assoc]
    · rw [hfst, hsnd, List.map_cons, hmap]
      congr 1
      rw [he2, coordsAt_append _ _ _ hb]
      exact hco

/-- **C10**: rebuilding a mesh from its set of faces (`from_set_of_faces`
applied to any enumeration of `as_set_of_faces`) yields a mesh equal to the
original under the set-of-faces equality `__eq__`: the composition is a
round-trip up to vertex renumbering and face ordering. -/
theorem C10_from_set_of_faces_roundtrip (m : Mesh) (l : List FaceCoords)
    (hl : l.toFinset = m.as_set_of_faces) :
    Mesh.meshEq (Mesh.from_set_of_faces l) m := by
  show (Mesh.from_set_of_faces l).facesCoordsList.toFinset = m.as_set_of_faces
  have hcoords : (Mesh.from_set_of_faces l).facesCoordsList = l :=
    (buildFromFaces_spec l []).2
  rw [hcoords, hl]

/-- Witness for C10 at the square mesh: rebuilding from its single
face-coordinate tuple gives an equal mesh. -/
theorem C10_from_set_of_faces_roundtrip_witness :
    Mesh.meshEq
      (Mesh.from_set_of_faces [((0, 0, 0), (1, 0, 0), (1, 1, 0), (0, 1, 0))])
      quadMesh :=
  C10_from_set_of_faces_roundtrip quadMesh
    [((0, 0, 0), (1, 0, 0), (1, 1, 0), (0, 1, 0))] (by decide)

/-! ## Idempotence of the normal-healing walk

The breadth-first walk on the flipped mesh visits the same faces in the
same order as on the original (face adjacency is direction-blind), with
every parity twisted by the flip flag; the minority side of every
component of the healed mesh is therefore empty, so a second
`heal_normals` flips nothing. -/

theorem xor_push (p s t c l : Bool) :
    xor (xor p (xor s c)) (xor l (xor s t)) = xor (xor p l) (xor t c) := by
  cases p <;> cases s <;> cases t <;> cases c <;> cases l <;> rfl

/-- Entries pushed by the walk stay inside the face range. -/
theorem neighborsOf_lt {adj : ℕ → ℕ → Bool} {n i j : ℕ}
    (h : j ∈ neighborsOf adj n i) : j < n := by
  have := List.mem_filter.mp h
  exact List.mem_range.mp this.1

theorem neighborsOf_adj {adj : ℕ → ℕ → Bool} {n i j : ℕ}
    (h : j ∈ neighborsOf adj n i) : adj i j = true :=
  (List.mem_filter.mp h).2

/-- The lockstep transport: running the walk with the twisted labels
`lbl' i j = lbl i j XOR S i XOR S j` on a queue with parities twisted by
`S · XOR c` yields the original visit order with all parities twisted by
`S · XOR c`, and the same visited list. -/
theorem bfsRun_transport (adj lbl lbl' : ℕ → ℕ → Bool) (n : ℕ)
    (S : ℕ → Bool) (c : Bool)
    (hl : ∀ i j, i < n → j < n → adj i j = true →
      lbl' i j = xor (lbl i j) (xor (S i) (S j))) :
    ∀ (fuel : ℕ) (queue : List (ℕ × Bool)) (vis : List ℕ),
      (∀ x ∈ queue, x.1 < n) →
      bfsRun adj lbl' n fuel
          (queue.map (fun x => (x.1, xor x.2 (xor (S x.1) c)))) vis =
        ((bfsRun adj lbl n fuel queue vis).1.map
            (fun x => (x.1, xor x.2 (xor (S x.1) c))),
         (bfsRun adj lbl n fuel queue vis).2) := by
  intro fuel
  induction fuel with
  | zero => intro queue vis _; rfl
  | succ fuel ih =>
    intro queue vis hq
    cases queue with
    | nil => rfl
    | cons x rest =>
      obtain ⟨i, p⟩ := x
      have hi : i < n := hq (i, p) (List.mem_cons_self _ _)
      have hrest : ∀ y ∈ rest, y.1 < n := fun y hy => hq y (List.mem_cons_of_mem _ hy)
      by_cases hmem : i ∈ vis
      · show bfsRun adj lbl' n (fuel + 1)
          ((i, xor p (xor (S i) c)) :: rest.map _) vis = _
        rw [show bfsRun adj lbl' n (fuel + 1)
            ((i, xor p (xor (S i) c)) :: rest.map
              (fun x => (x.1, xor x.2 (xor (S x.1) c)))) vis =
            bfsRun adj lbl' n fuel (rest.map
              (fun x => (x.1, xor x.2 (xor (S x.1) c)))) vis by
          simp [bfsRun, hmem]]
        rw [show bfsRun adj lbl n (fuel + 1) ((i, p) :: rest) vis =
            bfsRun adj lbl n fuel rest vis by simp [bfsRun, hmem]]
        exact ih rest vis hrest
      · simp only [List.map_cons]
        have hpush : (neighborsOf adj n i).map
            (fun j => (j, xor (xor p (xor (S i) c)) (lbl' i j))) =
            ((neighborsOf adj n i).map (fun j => (j, xor p (lbl i j)))).map
              (fun x => (x.1, xor x.2 (xor (S x.1) c))) := by
          rw [List.map_map]
          apply List.map_congr_left
          intro j hj
          have hjn : j < n := neighborsOf_lt hj
          have hadj : adj i j = true := neighborsOf_adj hj
          show (j, xor (xor p (xor (S i) c)) (lbl' i j)) =
            (j, xor (xor p (lbl i j)) (xor (S j) c))
          rw [hl i j hi hjn hadj, xor_push]
        have hL : bfsRun adj lbl' n (fuel + 1)
            ((i, xor p (xor (S i) c)) :: rest.map
              (fun x => (x.1, xor x.2 (xor (S x.1) c)))) vis =
            ((i, xor p (xor (S i) c)) ::
              (bfsRun adj lbl' n fuel
                (rest.map (fun x => (x.1, xor x.2 (xor (S x.1) c))) ++
                  (neighborsOf adj n i).map
                    (fun j => (j, xor (xor p (xor (S i) c)) (lbl' i j))))
                (i :: vis)).1,
             (bfsRun adj lbl' n fuel
                (rest.map (fun x => (x.1, xor x.2 (xor (S x.1) c))) ++
                  (neighborsOf adj n i).map
                    (fun j => (j, xor (xor p (xor (S i) c)) (lbl' i j))))
                (i :: vis)).2) := by
          simp [bfsRun, hmem]
        have hR : bfsRun adj lbl n (fuel + 1) ((i, p) :: rest) vis =
            ((i, p) ::
              (bfsRun adj lbl n fuel
                (rest ++ (neighborsOf adj n i).map
                  (fun j => (j, xor p (lbl i j)))) (i :: vis)).1,
             (bfsRun adj lbl n fuel
                (rest ++ (neighborsOf adj n i).map
                  (fun j => (j, xor p (lbl i j)))) (i :: vis)).2) := by
          simp [bfsRun, hmem]
        rw [hL, hR]
        simp only [List.map_cons]
        rw [hpush]
        have harg : ∀ y ∈ rest ++ (neighborsOf adj n i).map
            (fun j => (j, xor p (lbl i j))), y.1 < n := by
          intro y hy
          rcases List.mem_append.mp hy with h | h
          · exact hrest y h
          · rcases List.mem_map.mp h with ⟨j, hj, rfl⟩
            exact neighborsOf_lt hj
        have := ih (rest ++ (neighborsOf adj n i).map
          (fun j => (j, xor p (lbl i j)))) (i :: vis) harg
        rw [List.map_append] at this
        rw [this]

/-- Unfolding: a visited queue head is skipped. -/
theorem bfsRun_skip {adj lbl : ℕ → ℕ → Bool} {n fuel i : ℕ} {p : Bool}
    {rest : List (ℕ × Bool)} {vis : List ℕ} (hmem : i ∈ vis) :
    bfsRun adj lbl n (fuel + 1) ((i, p) :: rest) vis =
      bfsRun adj lbl n fuel rest vis := by
  simp [bfsRun, hmem]

/-- Unfolding: an unvisited queue head is emitted and its neighbours
pushed. -/
theorem bfsRun_emit {adj lbl : ℕ → ℕ → Bool} {n fuel i : ℕ} {p : Bool}
    {rest : List (ℕ × Bool)} {vis : List ℕ} (hmem : i ∉ vis) :
    bfsRun adj lbl n (fuel + 1) ((i, p) :: rest) vis =
      ((i, p) :: (bfsRun adj lbl n fuel
          (rest ++ (neighborsOf adj n i).map (fun j => (j, xor p (lbl i j))))
          (i :: vis)).1,
       (bfsRun adj lbl n fuel
          (rest ++ (neighborsOf adj n i).map (fun j => (j, xor p (lbl i j))))
          (i :: vis)).2) := by
  simp [bfsRun, hmem]

/-- The outer walk on the twisted labels produces the same components with
every parity twisted by `S · XOR S seed`, where the seed is the head of the
component, and the same visited list. -/
theorem bfsOuterAux_transport (adj lbl lbl' : ℕ → ℕ → Bool) (n : ℕ)
    (S : ℕ → Bool)
    (hl : ∀ i j, i < n → j < n → adj i j = true →
      lbl' i j = xor (lbl i j) (xor (S i) (S j))) :
    ∀ (is : List ℕ) (vis : List ℕ), (∀ i ∈ is, i < n) →
      bfsOuterAux adj lbl' n is vis =
        ((bfsOuterAux adj lbl n is vis).1.map (fun comp =>
          comp.map (fun x =>
            (x.1, xor x.2 (xor (S x.1) (S (comp.headD (0, false)).1))))),
         (bfsOuterAux adj lbl n is vis).2) := by
  intro is
  induction is with
  | nil => intro vis _; rfl
  | cons i is ih =>
    intro vis his
    have hi : i < n := his i (List.mem_cons_self _ _)
    have his' : ∀ j ∈ is, j < n := fun j hj => his j (List.mem_cons_of_mem _ hj)
    by_cases hmem : i ∈ vis
    · rw [show bfsOuterAux adj lbl' n (i :: is) vis =
          bfsOuterAux adj lbl' n is vis by simp [bfsOuterAux, hmem],
        show bfsOuterAux adj lbl n (i :: is) vis =
          bfsOuterAux adj lbl n is vis by simp [bfsOuterAux, hmem]]
      exact ih vis his'
    · -- the inner run on the twisted labels
      have hrun := bfsRun_transport adj lbl lbl' n S (S i) hl
        (n * n + n + 1) [(i, false)] vis
        (by
          intro x hx
          simp only [List.mem_singleton] at hx
          subst hx
          exact hi)
      rw [show ([((i : ℕ), false)].map
          (fun x => (x.1, xor x.2 (xor (S x.1) (S i))))) = [(i, false)] by
        simp] at hrun
      -- name the inner run on the original labels
      have hseed := @bfsRun_emit adj lbl n (n * n + n) i false [] vis hmem
      have hhead : (bfsRun adj lbl n (n * n + n + 1) [(i, false)] vis).1.headD
          (0, false) = (i, false) := by
        rw [hseed]
        rfl
      have houter : bfsOuterAux adj lbl n (i :: is) vis =
          ((bfsRun adj lbl n (n * n + n + 1) [(i, false)] vis).1 ::
            (bfsOuterAux adj lbl n is
              (bfsRun adj lbl n (n * n + n + 1) [(i, false)] vis).2).1,
           (bfsOuterAux adj lbl n is
              (bfsRun adj lbl n (n * n + n + 1) [(i, false)] vis).2).2) := by
        simp [bfsOuterAux, hmem]
      have houter' : bfsOuterAux adj lbl' n (i :: is) vis =
          ((bfsRun adj lbl' n (n * n + n + 1) [(i, false)] vis).1 ::
            (bfsOuterAux adj lbl' n is
              (bfsRun adj lbl' n (n * n + n + 1) [(i, false)] vis).2).1,
           (bfsOuterAux adj lbl' n is
              (bfsRun adj lbl' n (n * n + n + 1) [(i, false)] vis).2).2) := by
        simp [bfsOuterAux, hmem]
      rw [houter, houter', hrun]
      rw [ih _ his']
      simp only [List.map_cons]
      rw [hhead]

/-- The visited list after a walk contains exactly the emitted faces and
the previously visited ones. -/
theorem bfsRun_vis_iff (adj lbl : ℕ → ℕ → Bool) (n : ℕ) :
    ∀ (fuel : ℕ) (queue : List (ℕ × Bool)) (vis : List ℕ) (x : ℕ),
      x ∈ (bfsRun adj lbl n fuel queue vis).2 ↔
        x ∈ (bfsRun adj lbl n fuel queue vis).1.map Prod.fst ∨ x ∈ vis := by
  intro fuel
  induction fuel with
  | zero => intro queue vis x; simp [bfsRun]
  | succ fuel ih =>
    intro queue vis x
    cases queue with
    | nil => simp [bfsRun]
    | cons y rest =>
      obtain ⟨i, p⟩ := y
      by_cases hmem : i ∈ vis
      · rw [bfsRun_skip hmem]
        exact ih rest vis x
      · rw [bfsRun_emit hmem]
        rw [show (((i, p) :: (bfsRun adj lbl n fuel
            (rest ++ (neighborsOf adj n i).map (fun j => (j, xor p (lbl i j))))
            (i :: vis)).1).map Prod.fst) =
          i :: ((bfsRun adj lbl n fuel
            (rest ++ (neighborsOf adj n i).map (fun j => (j, xor p (lbl i j))))
            (i :: vis)).1.map Prod.fst) from rfl]
        rw [ih]
        simp only [List.mem_cons]
        tauto

/-- The emitted faces of one walk are distinct and were not previously
visited. -/
theorem bfsRun_emitted (adj lbl : ℕ → ℕ → Bool) (n : ℕ) :
    ∀ (fuel : ℕ) (queue : List (ℕ × Bool)) (vis : List ℕ),
      ((bfsRun adj lbl n fuel queue vis).1.map Prod.fst).Nodup ∧
      ∀ x ∈ (bfsRun adj lbl n fuel queue vis).1.map Prod.fst, x ∉ vis := by
  intro fuel
  induction fuel with
  | zero => intro queue vis; simp [bfsRun]
  | succ fuel ih =>
    intro queue vis
    cases queue with
    | nil => simp [bfsRun]
    | cons y rest =>
      obtain ⟨i, p⟩ := y
      by_cases hmem : i ∈ vis
      · rw [bfsRun_skip hmem]
        exact ih rest vis
      · rw [bfsRun_emit hmem]
        obtain ⟨htail_nodup, htail_fresh⟩ := ih
          (rest ++ (neighborsOf adj n i).map (fun j => (j, xor p (lbl i j))))
          (i :: vis)
        rw [show (((i, p) :: (bfsRun adj lbl n fuel
            (rest ++ (neighborsOf adj n i).map (fun j => (j, xor p (lbl i j))))
            (i :: vis)).1).map Prod.fst) =
          i :: ((bfsRun adj lbl n fuel
            (rest ++ (neighborsOf adj n i).map (fun j => (j, xor p (lbl i j))))
            (i :: vis)).1.map Prod.fst) from rfl]
        constructor
        · rw [List.nodup_cons]
          refine ⟨fun hx => ?_, htail_nodup⟩
          exact htail_fresh i hx (List.mem_cons_self _ _)
        · intro x hx
          rcases List.mem_cons.mp hx with rfl | hx'
          · exact hmem
          · exact fun hv => htail_fresh x hx' (List.mem_cons_of_mem _ hv)

/-- Every component of the outer walk has distinct face ids, none of them
previously visited, and the components are pairwise disjoint. -/
theorem bfsOuterAux_clean (adj lbl : ℕ → ℕ → Bool) (n : ℕ) :
    ∀ (is : List ℕ) (vis : List ℕ),
      (∀ comp ∈ (bfsOuterAux adj lbl n is vis).1,
        (comp.map Prod.fst).Nodup ∧ ∀ x ∈ comp.map Prod.fst, x ∉ vis) ∧
      (bfsOuterAux adj lbl n is vis).1.Pairwise
        (fun c d => ∀ x ∈ c.map Prod.fst, x ∉ d.map Prod.fst) := by
  intro is
  induction is with
  | nil => intro vis; simp [bfsOuterAux]
  | cons i is ih =>
    intro vis
    by_cases hmem : i ∈ vis
    · rw [show bfsOuterAux adj lbl n (i :: is) vis =
        bfsOuterAux adj lbl n is vis by simp [bfsOuterAux, hmem]]
      exact ih vis
    · rw [show bfsOuterAux adj lbl n (i :: is) vis =
        ((bfsRun adj lbl n (n * n + n + 1) [(i, false)] vis).1 ::
          (bfsOuterAux adj lbl n is
            (bfsRun adj lbl n (n * n + n + 1) [(i, false)] vis).2).1,
         (bfsOuterAux adj lbl n is
            (bfsRun adj lbl n (n * n + n + 1) [(i, false)] vis).2).2) by
        simp [bfsOuterAux, hmem]]
      obtain ⟨hc_nodup, hc_fresh⟩ :=
        bfsRun_emitted adj lbl n (n * n + n + 1) [(i, false)] vis
      obtain ⟨hrest_each, hrest_pair⟩ :=
        ih (bfsRun adj lbl n (n * n + n + 1) [(i, false)] vis).2
      constructor
      · intro comp hcomp
        rcases List.mem_cons.mp hcomp with rfl | hcomp'
        · exact ⟨hc_nodup, hc_fresh⟩
        · obtain ⟨h1, h2⟩ := hrest_each comp hcomp'
          refine ⟨h1, fun x hx hv => ?_⟩
          exact h2 x hx ((bfsRun_vis_iff adj lbl n _ _ _ x).mpr (Or.inr hv))
      · rw [List.pairwise_cons]
        refine ⟨fun d hd x hx hxd => ?_, hrest_pair⟩
        have hxvis : x ∈ (bfsRun adj lbl n (n * n + n + 1) [(i, false)] vis).2 :=
          (bfsRun_vis_iff adj lbl n _ _ _ x).mpr (Or.inl hx)
        exact (hrest_each d hd).2 x hxd hxvis

/-- Every component of the outer walk is nonempty and its head — the seed
of the walk — carries parity `false`. -/
theorem bfsOuterAux_head (adj lbl : ℕ → ℕ → Bool) (n : ℕ) :
    ∀ (is : List ℕ) (vis : List ℕ),
      ∀ comp ∈ (bfsOuterAux adj lbl n is vis).1,
        comp ≠ [] ∧ (comp.headD (0, false)).2 = false := by
  intro is
  induction is with
  | nil => intro vis comp hcomp; simp [bfsOuterAux] at hcomp
  | cons i is ih =>
    intro vis comp hcomp
    by_cases hmem : i ∈ vis
    · rw [show bfsOuterAux adj lbl n (i :: is) vis =
        bfsOuterAux adj lbl n is vis by simp [bfsOuterAux, hmem]] at hcomp
      exact ih vis comp hcomp
    · rw [show bfsOuterAux adj lbl n (i :: is) vis =
        ((bfsRun adj lbl n (n * n + n + 1) [(i, false)] vis).1 ::
          (bfsOuterAux adj lbl n is
            (bfsRun adj lbl n (n * n + n + 1) [(i, false)] vis).2).1,
         (bfsOuterAux adj lbl n is
            (bfsRun adj lbl n (n * n + n + 1) [(i, false)] vis).2).2) by
        simp [bfsOuterAux, hmem]] at hcomp
      rcases List.mem_cons.mp hcomp with rfl | hcomp'
      · rw [bfsRun_emit hmem]
        exact ⟨List.cons_ne_nil _ _, rfl⟩
      · exact ih _ comp hcomp'

/-- In a component with distinct face ids, the parity of a face is
determined by its id. -/
theorem fst_nodup_inj {l : List (ℕ × Bool)} (h : (l.map Prod.fst).Nodup)
    {i : ℕ} {p q : Bool} (h1 : (i, p) ∈ l) (h2 : (i, q) ∈ l) : p = q := by
  induction l with
  | nil => cases h1
  | cons y t ih =>
    rw [List.map_cons, List.nodup_cons] at h
    rcases List.mem_cons.mp h1 with rfl | h1'
    · rcases List.mem_cons.mp h2 with h2h | h2'
      · exact (congrArg Prod.snd h2h.symm)
      · exact absurd (List.mem_map_of_mem Prod.fst h2') h.1
    · rcases List.mem_cons.mp h2 with rfl | h2'
      · exact absurd (List.mem_map_of_mem Prod.fst h1') h.1
      · exact ih h.2 h1' h2'

/-- Membership of a face id in a filtered side of its component is
equivalent to its parity passing the filter. -/
theorem mem_filter_map_fst {comp : List (ℕ × Bool)}
    (hnodup : (comp.map Prod.fst).Nodup) {i : ℕ} {p : Bool}
    (hx : (i, p) ∈ comp) (q : ℕ × Bool → Bool) :
    i ∈ (comp.filter q).map Prod.fst ↔ q (i, p) = true := by
  constructor
  · intro h
    rcases List.mem_map.mp h with ⟨y, hy, hy1⟩
    obtain ⟨hyc, hyq⟩ := List.mem_filter.mp hy
    obtain ⟨y1, y2⟩ := y
    obtain rfl : y1 = i := hy1
    obtain rfl : y2 = p := fst_nodup_inj hnodup hyc hx
    exact hyq
  · intro h
    exact List.mem_map_of_mem Prod.fst (List.mem_filter.mpr ⟨hx, h⟩)

/-- The flipped side of a component consists of ids of that component. -/
theorem componentFlips_subset {comp : List (ℕ × Bool)} {x : ℕ}
    (h : x ∈ componentFlips comp) : x ∈ comp.map Prod.fst := by
  unfold componentFlips at h
  split at h <;>
  · rcases List.mem_map.mp h with ⟨y, hy, rfl⟩
    exact List.mem_map_of_mem Prod.fst (List.mem_filter.mp hy).1

/-- Turning a propositional membership into its boolean value. -/
theorem decide_eq_of_iff {P : Prop} [Decidable P] {b : Bool}
    (h : P ↔ b = true) : decide P = b := by
  cases b
  · exact decide_eq_false (fun hp => nomatch (h.mp hp))
  · exact decide_eq_true (h.mpr rfl)

/-- Membership in the minority side, by parity. -/
theorem mem_componentFlips_iff {comp : List (ℕ × Bool)}
    (hnodup : (comp.map Prod.fst).Nodup) {i : ℕ} {p : Bool}
    (hx : (i, p) ∈ comp) :
    i ∈ componentFlips comp ↔
      (if (comp.filter (fun x => x.2)).length ≤
          comp.length - (comp.filter (fun x => x.2)).length
       then p = true else p = false) := by
  unfold componentFlips
  split
  · exact mem_filter_map_fst hnodup hx _
  · rw [mem_filter_map_fst hnodup hx (fun x => !x.2)]
    simp

/-- A component whose parities are all `false` has an empty minority
side. -/
theorem componentFlips_all_false {comp : List (ℕ × Bool)}
    (h : ∀ x ∈ comp, x.2 = false) : componentFlips comp = [] := by
  unfold componentFlips
  have hts : comp.filter (fun x => x.2) = [] := by
    rw [List.filter_eq_nil_iff]
    intro x hx
    simp [h x hx]
  rw [hts]
  simp

/-- **Key idempotence fact**: when the labels are twisted by the flip flag
computed from the original labels — which is exactly what flipping the
minority sides does to the orientation labels — the new walk finds no face
to flip. -/
theorem healFlips_idem (adj lbl lbl' : ℕ → ℕ → Bool) (n : ℕ)
    (hl : ∀ i j, i < n → j < n → adj i j = true →
      lbl' i j = xor (lbl i j)
        (xor (decide (i ∈ healFlips adj lbl n))
             (decide (j ∈ healFlips adj lbl n)))) :
    healFlips adj lbl' n = [] := by
  have htrans := bfsOuterAux_transport adj lbl lbl' n
    (fun x => decide (x ∈ healFlips adj lbl n)) hl (List.range n) []
    (fun i hi => List.mem_range.mp hi)
  have hcomps' : bfsComponents adj lbl' n =
      (bfsComponents adj lbl n).map (fun comp =>
        comp.map (fun x => (x.1, xor x.2
          (xor (decide (x.1 ∈ healFlips adj lbl n))
               (decide ((comp.headD (0, false)).1 ∈ healFlips adj lbl n)))))) := by
    unfold bfsComponents
    rw [htrans]
  obtain ⟨heach, hpair⟩ := bfsOuterAux_clean adj lbl n (List.range n) []
  have hhead := bfsOuterAux_head adj lbl n (List.range n) []
  -- the flip flag of a face of a component is its membership in that
  -- component's own minority side
  have hflag : ∀ comp ∈ bfsComponents adj lbl n, ∀ x ∈ comp,
      decide (x.1 ∈ healFlips adj lbl n) =
        decide (x.1 ∈ componentFlips comp) := by
    intro comp hcomp x hx
    have hx1 : x.1 ∈ comp.map Prod.fst := List.mem_map_of_mem Prod.fst hx
    by_cases hv : x.1 ∈ healFlips adj lbl n
    · rw [decide_eq_true hv]
      have hmem := hv
      unfold healFlips at hmem
      rw [List.mem_flatten] at hmem
      obtain ⟨fl, hfl, hxfl⟩ := hmem
      rcases List.mem_map.mp hfl with ⟨D, hD, rfl⟩
      have hxD : x.1 ∈ D.map Prod.fst := componentFlips_subset hxfl
      by_cases hDeq : D = comp
      · subst hDeq
        rw [decide_eq_true hxfl]
      · exfalso
        have hsymm : Symmetric (fun c d : List (ℕ × Bool) =>
            ∀ y ∈ c.map Prod.fst, y ∉ d.map Prod.fst) :=
          fun c d h y hy hyc => h y hyc hy
        exact (hpair.forall hsymm) hD hcomp hDeq x.1 hxD hx1
    · rw [decide_eq_false hv]
      by_cases hw : x.1 ∈ componentFlips comp
      · exact absurd (by
          unfold healFlips
          rw [List.mem_flatten]
          exact ⟨componentFlips comp,
            List.mem_map_of_mem componentFlips hcomp, hw⟩) hv
      · rw [decide_eq_false hw]
  -- every parity of the twisted components is false
  have hfalse : ∀ comp ∈ bfsComponents adj lbl n, ∀ x ∈ comp,
      xor x.2 (xor (decide (x.1 ∈ healFlips adj lbl n))
        (decide ((comp.headD (0, false)).1 ∈ healFlips adj lbl n))) = false := by
    intro comp hcomp x hx
    obtain ⟨hne, hhd⟩ := hhead comp hcomp
    have hnodup := (heach _ hcomp).1
    obtain ⟨z, t, rfl⟩ := List.exists_cons_of_ne_nil hne
    obtain ⟨rid, rp⟩ := z
    have hrp : rp = false := hhd
    subst hrp
    obtain ⟨i, p⟩ := x
    have hSx := hflag _ hcomp (i, p) hx
    have hSr := hflag _ hcomp (rid, false) (List.mem_cons_self _ _)
    rw [show (((rid, false) :: t).headD (0, false)).1 = rid from rfl]
    rw [hSx, hSr]
    by_cases hbr : (((rid, false) :: t).filter (fun x => x.2)).length ≤
        ((rid, false) :: t).length -
          (((rid, false) :: t).filter (fun x => x.2)).length
    · have h1 : decide (i ∈ componentFlips ((rid, false) :: t)) = p :=
        decide_eq_of_iff (by
          rw [mem_componentFlips_iff hnodup hx, if_pos hbr])
      have h2 : decide (rid ∈ componentFlips ((rid, false) :: t)) = false :=
        decide_eq_of_iff (by
          rw [mem_componentFlips_iff hnodup (List.mem_cons_self _ _), if_pos hbr])
      rw [h1, h2]
      cases p <;> rfl
    · have h1 : decide (i ∈ componentFlips ((rid, false) :: t)) = !p :=
        decide_eq_of_iff (by
          rw [mem_componentFlips_iff hnodup hx, if_neg hbr]
          cases p <;> simp)
      have h2 : decide (rid ∈ componentFlips ((rid, false) :: t)) = true :=
        decide_eq_of_iff (by
          rw [mem_componentFlips_iff hnodup (List.mem_cons_self _ _), if_neg hbr]
          simp)
      rw [h1, h2]
      cases p <;> rfl
  -- hence every minority side of the twisted walk is empty
  show ((bfsComponents adj lbl' n).map componentFlips).flatten = []
  rw [hcomps']
  rw [List.flatten_eq_nil_iff]
  intro fl hfl
  rcases List.mem_map.mp hfl with ⟨comp', hcomp', rfl⟩
  rcases List.mem_map.mp hcomp' with ⟨comp, hcomp, rfl⟩
  apply componentFlips_all_false
  intro x' hx'
  rcases List.mem_map.mp hx' with ⟨x, hx, rfl⟩
  exact hfalse comp hcomp x hx

/-! ### Normal healing at the mesh level -/

/-- Reversing a face turns each of its directed edges around. -/
theorem mem_faceEdges_rev (f : Face) (e : ℕ × ℕ) :
    e ∈ faceEdges (revFace f) ↔ (e.2, e.1) ∈ faceEdges f := by
  obtain ⟨a, b, c, d⟩ := f
  obtain ⟨x, y⟩ := e
  simp only [faceEdges, revFace, List.mem_filter, List.mem_cons,
    List.not_mem_nil, or_false, Prod.mk.injEq, Bool.not_eq_true',
    beq_eq_false_iff_ne, ne_eq]
  constructor
  · rintro ⟨h1, h2⟩
    exact ⟨by tauto, fun h => h2 h.symm⟩
  · rintro ⟨h1, h2⟩
    exact ⟨by tauto, fun h => h2 h.symm⟩

theorem sameShare_rev_left (f g : Face) :
    sameShare (revFace f) g = oppShare f g := by
  unfold sameShare oppShare
  rcases hb : (faceEdges f).any (fun e => decide ((e.2, e.1) ∈ faceEdges g)) with _ | _
  · rw [List.any_eq_false] at hb
    rw [List.any_eq_false]
    intro e he
    have he' := (mem_faceEdges_rev f e).mp he
    have := hb (e.2, e.1) he'
    simpa using this
  · rw [List.any_eq_true] at hb
    rw [List.any_eq_true]
    obtain ⟨e, he, heg⟩ := hb
    refine ⟨(e.2, e.1), (mem_faceEdges_rev f (e.2, e.1)).mpr he, ?_⟩
    simpa using heg

theorem oppShare_rev_left (f g : Face) :
    oppShare (revFace f) g = sameShare f g := by
  unfold sameShare oppShare
  rcases hb : (faceEdges f).any (fun e => decide (e ∈ faceEdges g)) with _ | _
  · rw [List.any_eq_false] at hb
    rw [List.any_eq_false]
    intro e he
    have he' := (mem_faceEdges_rev f e).mp he
    have := hb (e.2, e.1) he'
    simpa using this
  · rw [List.any_eq_true] at hb
    rw [List.any_eq_true]
    obtain ⟨e, he, heg⟩ := hb
    refine ⟨(e.2, e.1), (mem_faceEdges_rev f (e.2, e.1)).mpr he, ?_⟩
    simpa using heg

theorem sameShare_rev_right (f g : Face) :
    sameShare f (revFace g) = oppShare f g := by
  unfold sameShare oppShare
  congr 1
  funext e
  rw [show (decide (e ∈ faceEdges (revFace g))) =
    decide ((e.2, e.1) ∈ faceEdges g) from
    decide_eq_of_iff ((mem_faceEdges_rev g e).trans decide_eq_true_iff.symm)]

theorem oppShare_rev_right (f g : Face) :
    oppShare f (revFace g) = sameShare f g := by
  unfold sameShare oppShare
  congr 1
  funext e
  rw [show (decide ((e.2, e.1) ∈ faceEdges (revFace g))) =
    decide (e ∈ faceEdges g) from
    decide_eq_of_iff ((mem_faceEdges_rev g (e.2, e.1)).trans
      decide_eq_true_iff.symm)]

theorem flipWhere_length (flag : ℕ → Bool) (m : Mesh) :
    (flipWhere flag m).faces.length = m.faces.length := by
  simp [flipWhere]

/-- Reading a face of the flipped mesh. -/
theorem flipWhere_getD (flag : ℕ → Bool) (m : Mesh) (i : ℕ) :
    (flipWhere flag m).faces.getD i default =
      (if i < m.faces.length then
        (if flag i then revFace (m.faces.getD i default)
         else m.faces.getD i default)
       else default) := by
  by_cases hi : i < m.faces.length
  · rw [if_pos hi]
    have hi' : i < ((List.range m.faces.length).map (fun i =>
        if flag i then revFace (m.faces.getD i default)
        else m.faces.getD i default)).length := by
      simpa using hi
    show ((List.range m.faces.length).map _).getD i default = _
    rw [List.getD_eq_getElem _ _ hi', List.getElem_map, List.getElem_range]
  · rw [if_neg hi]
    apply List.getD_eq_default
    rw [flipWhere_length]
    exact Nat.le_of_not_lt hi

/-- Out-of-range reads give the default face. -/
theorem getD_default_of_ge {m : Mesh} {i : ℕ} (hi : ¬ i < m.faces.length) :
    m.faces.getD i default = default :=
  List.getD_eq_default _ _ (Nat.le_of_not_lt hi)

/-- Flipping faces does not change the adjacency graph. -/
theorem meshAdj_flipWhere (flag : ℕ → Bool) (m : Mesh) (i j : ℕ) :
    (flipWhere flag m).meshAdj i j = m.meshAdj i j := by
  unfold Mesh.meshAdj
  rw [flipWhere_getD, flipWhere_getD]
  by_cases hi : i < m.faces.length
  · by_cases hj : j < m.faces.length
    · rw [if_pos hi, if_pos hj]
      cases hfi : flag i <;> cases hfj : flag j <;>
        simp [sameShare_rev_left, oppShare_rev_left, sameShare_rev_right,
          oppShare_rev_right, Bool.or_comm]
    · rw [if_pos hi, if_neg hj, getD_default_of_ge hj]
      cases hfi : flag i <;>
        simp [sameShare_rev_left, oppShare_rev_left, Bool.or_comm]
  · by_cases hj : j < m.faces.length
    · rw [if_neg hi, if_pos hj, getD_default_of_ge hi]
      cases hfj : flag j <;>
        simp [sameShare_rev_right, oppShare_rev_right, Bool.or_comm]
    · rw [if_neg hi, if_neg hj, getD_default_of_ge hi, getD_default_of_ge hj]

/-- On an orientation-unambiguous mesh — no adjacent pair shares edges in
both directions — flipping twists the orientation label of every adjacent
pair by the two flags. -/
theorem meshLbl_flipWhere (flag : ℕ → Bool) (m : Mesh)
    (hcl : ∀ i j, m.meshAdj i j = true →
      ¬(sameShare (m.faces.getD i default) (m.faces.getD j default) = true ∧
        oppShare (m.faces.getD i default) (m.faces.getD j default) = true))
    (i j : ℕ) (hadj : m.meshAdj i j = true) :
    (flipWhere flag m).meshLbl i j =
      xor (m.meshLbl i j) (xor (flag i) (flag j)) := by
  have hor : (sameShare (m.faces.getD i default) (m.faces.getD j default) ||
      oppShare (m.faces.getD i default) (m.faces.getD j default)) = true := by
    unfold Mesh.meshAdj at hadj
    exact (Bool.and_eq_true_iff.mp hadj).2
  have hnotboth := hcl i j hadj
  -- the faces must be in range: a shared (non-degenerate) edge requires a
  -- real face, and the default face has no edges
  have hdefault : ∀ g : Face, sameShare default g = false ∧
      oppShare default g = false := by
    intro g
    constructor <;> rfl
  have hdefault' : ∀ g : Face, sameShare g default = false ∧
      oppShare g default = false := by
    intro g
    constructor
    · unfold sameShare
      rw [List.any_eq_false]
      intro e he
      rw [show (default : Face) = (0, 0, 0, 0) from rfl]
      simp [faceEdges]
    · unfold oppShare
      rw [List.any_eq_false]
      intro e he
      rw [show (default : Face) = (0, 0, 0, 0) from rfl]
      simp [faceEdges]
  by_cases hi : i < m.faces.length
  · by_cases hj : j < m.faces.length
    · unfold Mesh.meshLbl
      rw [flipWhere_getD, flipWhere_getD, if_pos hi, if_pos hj]
      cases hfi : flag i <;> cases hfj : flag j
      · -- neither flipped
        rw [if_neg Bool.false_ne_true, if_neg Bool.false_ne_true]
        cases hs : sameShare (m.faces.getD i default) (m.faces.getD j default) <;> rfl
      · -- only j flipped
        rw [if_neg Bool.false_ne_true, if_pos rfl, sameShare_rev_right]
        rcases hs : sameShare (m.faces.getD i default) (m.faces.getD j default)
            with _ | _ <;>
          rcases ho : oppShare (m.faces.getD i default) (m.faces.getD j default)
            with _ | _
        · rw [hs, ho] at hor
          cases hor
        · rfl
        · rfl
        · exact absurd ⟨hs, ho⟩ hnotboth
      · -- only i flipped
        rw [if_pos rfl, if_neg Bool.false_ne_true, sameShare_rev_left]
        rcases hs : sameShare (m.faces.getD i default) (m.faces.getD j default)
            with _ | _ <;>
          rcases ho : oppShare (m.faces.getD i default) (m.faces.getD j default)
            with _ | _
        · rw [hs, ho] at hor
          cases hor
        · rfl
        · rfl
        · exact absurd ⟨hs, ho⟩ hnotboth
      · -- both flipped
        rw [if_pos rfl, if_pos rfl, sameShare_rev_left, oppShare_rev_right]
        cases hs : sameShare (m.faces.getD i default) (m.faces.getD j default) <;> rfl
    · exfalso
      rw [getD_default_of_ge hj] at hor
      rw [(hdefault' _).1, (hdefault' _).2] at hor
      cases hor
  · exfalso
    rw [getD_default_of_ge hi] at hor
    rw [(hdefault _).1, (hdefault _).2] at hor
    cases hor

/-- Flipping nothing on a mesh with an empty cache is the identity. -/
theorem flipWhere_id_of_flag_false {flag : ℕ → Bool} {m : Mesh}
    (hflag : ∀ i, flag i = false) (hint : m.internals = Internals.empty) :
    flipWhere flag m = m := by
  obtain ⟨v, f, nm, ints⟩ := m
  unfold flipWhere
  simp only at hint
  subst hint
  congr 1
  have : ∀ i ∈ List.range f.length,
      (if flag i then revFace (f.getD i default) else f.getD i default) =
        f.getD i default := by
    intro i _
    rw [hflag i]
    rfl
  rw [List.map_congr_left this]
  exact map_getD_range f default

/-- Orientation-unambiguity: no adjacent pair of faces shares edges in both
directions (a mild manifold-like condition; the spec leaves non-manifold
inputs unspecified). -/
def Mesh.orientable (m : Mesh) : Prop :=
  ∀ i j, m.meshAdj i j = true →
    ¬(sameShare (m.faces.getD i default) (m.faces.getD j default) = true ∧
      oppShare (m.faces.getD i default) (m.faces.getD j default) = true)

/-- `heal_normals` is idempotent on orientation-unambiguous meshes: the
healed mesh's walk finds every component already consistently labelled, so
the second pass flips nothing. -/
theorem heal_normals_idem (m : Mesh) (hcl : m.orientable) :
    m.heal_normals.heal_normals = m.heal_normals := by
  have hlen : m.heal_normals.faces.length = m.faces.length :=
    flipWhere_length _ m
  have hadj : m.heal_normals.meshAdj = m.meshAdj := by
    funext i j
    exact meshAdj_flipWhere _ m i j
  have hempty : healFlips m.heal_normals.meshAdj m.heal_normals.meshLbl
      m.heal_normals.faces.length = [] := by
    rw [hlen, hadj]
    apply healFlips_idem m.meshAdj m.meshLbl m.heal_normals.meshLbl
    intro i j _ _ hadjij
    exact meshLbl_flipWhere _ m hcl i j hadjij
  show flipWhere _ m.heal_normals = m.heal_normals
  simp only [hempty]
  apply flipWhere_id_of_flag_false
  · intro i
    simp
  · rfl

/-! ### The other healing stages fix the once-healed mesh -/

/-- The shapes on which `healTriangleFace` is the identity: canonical
triangle encodings and faces without a repeated adjacent pair. -/
def htFixed (f : Face) : Prop :=
  f.1 = f.2.2.2 ∨
    (f.1 ≠ f.2.2.2 ∧ f.1 ≠ f.2.1 ∧ f.2.1 ≠ f.2.2.1 ∧ f.2.2.1 ≠ f.2.2.2)

theorem healTriangleFace_of_fixed {f : Face} (h : htFixed f) :
    healTriangleFace f = f := by
  unfold healTriangleFace
  rcases h with h | ⟨h1, h2, h3, h4⟩
  · rw [if_pos h]
  · rw [if_neg h1, if_neg h2, if_neg h3, if_neg h4]

theorem htFixed_healTriangleFace (f : Face) : htFixed (healTriangleFace f) := by
  unfold healTriangleFace htFixed
  split_ifs with h1 h2 h3 h4
  · exact Or.inl h1
  · exact Or.inl rfl
  · exact Or.inl rfl
  · exact Or.inl rfl
  · exact Or.inr ⟨h1, h2, h3, h4⟩

theorem htFixed_revFace {f : Face} (h : htFixed f) : htFixed (revFace f) := by
  obtain ⟨a, b, c, d⟩ := f
  rcases h with h | ⟨h1, h2, h3, h4⟩
  · exact Or.inl h.symm
  · exact Or.inr ⟨fun hh => h1 hh.symm, fun hh => h4 hh.symm,
      fun hh => h3 hh.symm, fun hh => h2 hh.symm⟩

theorem healTriangleFace_idem (f : Face) :
    healTriangleFace (healTriangleFace f) = healTriangleFace f :=
  healTriangleFace_of_fixed (htFixed_healTriangleFace f)

theorem mem_faceIndexList_healTriangleFace (j : ℕ) (f : Face) :
    j ∈ faceIndexList (healTriangleFace f) ↔ j ∈ faceIndexList f := by
  obtain ⟨a, b, c, d⟩ := f
  unfold healTriangleFace
  dsimp only
  split_ifs with h1 h2 h3 h4 <;>
    simp only [faceIndexList, List.mem_cons, List.not_mem_nil, or_false]
  · subst h2; tauto
  · subst h3; tauto
  · subst h4; tauto

theorem mem_faceIndexList_revFace (j : ℕ) (f : Face) :
    j ∈ faceIndexList (revFace f) ↔ j ∈ faceIndexList f := by
  obtain ⟨a, b, c, d⟩ := f
  simp only [faceIndexList, revFace, List.mem_cons, List.not_mem_nil, or_false]
  tauto

theorem toFinset_faceIndexList_healTriangleFace (f : Face) :
    (faceIndexList (healTriangleFace f)).toFinset = (faceIndexList f).toFinset :=
  List.toFinset.ext (fun j => mem_faceIndexList_healTriangleFace j f)

theorem toFinset_faceIndexList_revFace (f : Face) :
    (faceIndexList (revFace f)).toFinset = (faceIndexList f).toFinset :=
  List.toFinset.ext (fun j => mem_faceIndexList_revFace j f)

/-- The coordinate list of a face is its index list read through the vertex
array. -/
theorem faceCoordsAsList_eq (m : Mesh) (f : Face) :
    faceCoordsAsList (m.faceCoords f) = (faceIndexList f).map m.vertexAt := rfl

theorem list_toFinset_map {α β : Type} [DecidableEq α] [DecidableEq β]
    (f : α → β) (l : List α) : (l.map f).toFinset = l.toFinset.image f := by
  apply Finset.ext
  intro x
  simp [List.mem_toFinset, Finset.mem_image, List.mem_map]

/-- Degeneracy only depends on the set of vertex indices of the face. -/
theorem isDegenerate_congr (m : Mesh) (f g : Face)
    (h : (faceIndexList f).toFinset = (faceIndexList g).toFinset) :
    isDegenerate (m.faceCoords f) = isDegenerate (m.faceCoords g) := by
  unfold isDegenerate
  have hlen : (faceCoordsAsList (m.faceCoords f)).dedup.length =
      (faceCoordsAsList (m.faceCoords g)).dedup.length := by
    rw [← List.card_toFinset, ← List.card_toFinset,
      faceCoordsAsList_eq, faceCoordsAsList_eq,
      list_toFinset_map, list_toFinset_map, h]
  rw [hlen]

theorem usedIdx_iff {m : Mesh} {vi : ℕ} :
    m.usedIdx vi = true ↔ ∃ f ∈ m.faces, vi ∈ faceIndexList f := by
  unfold Mesh.usedIdx
  simp [List.any_eq_true]

theorem indexOf_range {j n : ℕ} (h : j < n) : (List.range n).indexOf j = j := by
  have hmem : j ∈ List.range n := List.mem_range.mpr h
  have hlt : (List.range n).indexOf j < (List.range n).length :=
    List.indexOf_lt_length.mpr hmem
  have hg := List.getElem_indexOf hlt
  rwa [List.getElem_range] at hg

theorem mapFace_eq_iff {g : ℕ → ℕ} {f : Face} :
    mapFace g f = f ↔
      (g f.1 = f.1 ∧ g f.2.1 = f.2.1 ∧ g f.2.2.1 = f.2.2.1 ∧
        g f.2.2.2 = f.2.2.2) := by
  obtain ⟨a, b, c, d⟩ := f
  simp [mapFace, Prod.ext_iff]

/-- Rewriting a structure whose cache is already empty. -/
theorem mesh_update_id {m : Mesh} (hint : m.internals = Internals.empty) :
    ({ m with internals := Internals.empty } : Mesh) = m := by
  cases m
  dsimp only at hint
  rw [hint]

/-- `remove_unused_vertices` is the identity (up to the cleared cache) on a
mesh whose vertices are all used and whose faces are in range. -/
theorem ru_id (m : Mesh) (hint : m.internals = Internals.empty)
    (hvalid : ∀ f ∈ m.faces, ∀ j ∈ faceIndexList f, j < m.vertices.length)
    (hused : ∀ v, v < m.vertices.length → m.usedIdx v = true) :
    m.remove_unused_vertices = m := by
  have hidv : (List.range m.vertices.length).filter m.usedIdx =
      List.range m.vertices.length :=
    List.filter_eq_self.mpr (fun i hi => hused i (List.mem_range.mp hi))
  show ({ vertices := ((List.range m.vertices.length).filter m.usedIdx).map (fun i => m.vertexAt i), faces := m.faces.map (mapFace (fun i => ((List.range m.vertices.length).filter m.usedIdx).indexOf i)), name := m.name, internals := Internals.empty } : Mesh) = m
  rw [hidv]
  have hverts : (List.range m.vertices.length).map (fun i => m.vertexAt i) =
      m.vertices := map_getD_range _ _
  have hfaces : m.faces.map (mapFace (fun i =>
      (List.range m.vertices.length).indexOf i)) = m.faces := by
    have hfix : ∀ f ∈ m.faces, mapFace (fun i =>
        (List.range m.vertices.length).indexOf i) f = f := by
      intro f hf
      rw [mapFace_eq_iff]
      refine ⟨?_, ?_, ?_, ?_⟩ <;>
        exact indexOf_range (hvalid f hf _ (by simp [faceIndexList]))
    rw [List.map_congr_left hfix]; rw [show (fun (a : Face) => a) = id from rfl, List.map_id]
  rw [hverts, hfaces]
  exact mesh_update_id hint

/-- The mesh produced by `remove_unused_vertices` uses every one of its
vertices. -/
theorem ru_all_used (m : Mesh) :
    ∀ v, v < m.remove_unused_vertices.vertices.length →
      m.remove_unused_vertices.usedIdx v = true := by
  intro v hv
  have hlen : m.remove_unused_vertices.vertices.length =
      ((List.range m.vertices.length).filter m.usedIdx).length := by
    show (((List.range m.vertices.length).filter m.usedIdx).map _).length = _
    rw [List.length_map]
  rw [hlen] at hv
  have hnodup : ((List.range m.vertices.length).filter m.usedIdx).Nodup :=
    (List.nodup_range _).filter _
  -- the old index stored at the new position `v`
  have hmem : ((List.range m.vertices.length).filter m.usedIdx)[v] ∈
      (List.range m.vertices.length).filter m.usedIdx := List.getElem_mem _
  have hold_used : m.usedIdx
      (((List.range m.vertices.length).filter m.usedIdx)[v]) = true :=
    (List.mem_filter.mp hmem).2
  obtain ⟨f, hf, hjf⟩ := usedIdx_iff.mp hold_used
  rw [usedIdx_iff]
  refine ⟨mapFace (fun i =>
    ((List.range m.vertices.length).filter m.usedIdx).indexOf i) f,
    List.mem_map_of_mem _ hf, ?_⟩
  have : ((List.range m.vertices.length).filter m.usedIdx).indexOf
      (((List.range m.vertices.length).filter m.usedIdx)[v]) = v := by
    have hlt : ((List.range m.vertices.length).filter m.usedIdx).indexOf
        (((List.range m.vertices.length).filter m.usedIdx)[v]) <
        ((List.range m.vertices.length).filter m.usedIdx).length :=
      List.indexOf_lt_length.mpr hmem
    have hg := List.getElem_indexOf hlt
    exact (List.Nodup.getElem_inj_iff hnodup).mp hg
  rw [← this]
  show ((List.range m.vertices.length).filter m.usedIdx).indexOf _ ∈
    faceIndexList (mapFace _ f)
  rw [faceIndexList_mapFace]
  exact List.mem_map_of_mem _ hjf

/-- `remove_unused_vertices` keeps face indices in range. -/
theorem ru_valid (m : Mesh)
    (hvalid : ∀ f ∈ m.faces, ∀ j ∈ faceIndexList f, j < m.vertices.length) :
    ∀ f ∈ m.remove_unused_vertices.faces, ∀ j ∈ faceIndexList f,
      j < m.remove_unused_vertices.vertices.length := by
  intro f' hf' j hj
  have hf'' : f' ∈ m.faces.map (mapFace (fun i =>
      ((List.range m.vertices.length).filter m.usedIdx).indexOf i)) := hf'
  rcases List.mem_map.mp hf'' with ⟨f, hf, rfl⟩
  rw [faceIndexList_mapFace] at hj
  rcases List.mem_map.mp hj with ⟨j0, hj0, rfl⟩
  have hj0lt : j0 < m.vertices.length := hvalid f hf j0 hj0
  have hj0used : m.usedIdx j0 = true := usedIdx_iff.mpr ⟨f, hf, hj0⟩
  have hj0mem : j0 ∈ (List.range m.vertices.length).filter m.usedIdx :=
    List.mem_filter.mpr ⟨List.mem_range.mpr hj0lt, hj0used⟩
  have : m.remove_unused_vertices.vertices.length =
      ((List.range m.vertices.length).filter m.usedIdx).length := by
    show (((List.range m.vertices.length).filter m.usedIdx).map _).length = _
    rw [List.length_map]
  rw [this]
  exact List.indexOf_lt_length.mpr hj0mem

/-- `remove_degenerated_faces` fixes a clean mesh. -/
theorem rd_id (m : Mesh) (hint : m.internals = Internals.empty)
    (h : ∀ f ∈ m.faces, isDegenerate (m.faceCoords f) = false) :
    m.remove_degenerated_faces = m := by
  unfold Mesh.remove_degenerated_faces
  have hfil : m.faces.filter (fun f => !(isDegenerate (m.faceCoords f))) =
      m.faces :=
    List.filter_eq_self.mpr (fun f hf => by rw [h f hf]; rfl)
  rw [hfil]
  exact mesh_update_id hint

/-- `merge_duplicates` fixes a mesh whose faces are fixed by the
representative map. -/
theorem md_id (close : Point → Point → Bool) (m : Mesh)
    (hint : m.internals = Internals.empty)
    (h : ∀ f ∈ m.faces, mapFace (m.mergeRep close) f = f) :
    m.merge_duplicates close = m := by
  unfold Mesh.merge_duplicates
  rw [List.map_congr_left h]; rw [show (fun (a : Face) => a) = id from rfl, List.map_id]
  exact mesh_update_id hint

/-- `heal_triangles` fixes a mesh whose faces are all of fixed shape. -/
theorem ht_id (m : Mesh) (hint : m.internals = Internals.empty)
    (h : ∀ f ∈ m.faces, htFixed f) :
    m.heal_triangles = m := by
  unfold Mesh.heal_triangles
  have : ∀ f ∈ m.faces, healTriangleFace f = f :=
    fun f hf => healTriangleFace_of_fixed (h f hf)
  rw [List.map_congr_left this]; rw [show (fun (a : Face) => a) = id from rfl, List.map_id]
  exact mesh_update_id hint

/-- The representative map only depends on the vertex array. -/
theorem mergeRep_congr (close : Point → Point → Bool) {m1 m2 : Mesh}
    (h : m1.vertices = m2.vertices) :
    m1.mergeRep close = m2.mergeRep close := by
  funext j
  unfold Mesh.mergeRep Mesh.vertexAt
  rw [h]

/-- The face-coordinate map only depends on the vertex array. -/
theorem faceCoords_congr {m1 m2 : Mesh} (h : m1.vertices = m2.vertices) :
    m1.faceCoords = m2.faceCoords := by
  funext f
  unfold Mesh.faceCoords Mesh.vertexAt
  rw [h]

/-- Clearing the face-property cache of a mesh with an empty cache changes
nothing. -/
theorem cfp_id {m : Mesh} (hint : m.internals = Internals.empty) :
    m.clearFacesProperties = m := by
  cases m
  dsimp only at hint
  subst hint
  rfl

theorem mapFace_fix_of_forall {g : ℕ → ℕ} {f : Face}
    (h : ∀ j ∈ faceIndexList f, g j = j) : mapFace g f = f := by
  rw [mapFace_eq_iff]
  exact ⟨h _ (by simp [faceIndexList]), h _ (by simp [faceIndexList]),
    h _ (by simp [faceIndexList]), h _ (by simp [faceIndexList])⟩

theorem forall_of_mapFace_fix {g : ℕ → ℕ} {f : Face}
    (h : mapFace g f = f) : ∀ j ∈ faceIndexList f, g j = j := by
  rw [mapFace_eq_iff] at h
  obtain ⟨h1, h2, h3, h4⟩ := h
  intro j hj
  simp only [faceIndexList, List.mem_cons, List.not_mem_nil, or_false] at hj
  rcases hj with rfl | rfl | rfl | rfl <;> assumption

theorem map_eq_self_mem {α : Type} {f : α → α} :
    ∀ {l : List α}, l.map f = l → ∀ x ∈ l, f x = x := by
  intro l
  induction l with
  | nil => intro _ x hx; cases hx
  | cons a t ih =>
    intro h x hx
    rw [List.map_cons, List.cons.injEq] at h
    rcases List.mem_cons.mp hx with rfl | hx
    · exact h.1
    · exact ih h.2 x hx

/-- Every face of `flipWhere flag m` is a face of `m` or its reversal. -/
theorem mem_flipWhere_faces {flag : ℕ → Bool} {m : Mesh} {f' : Face}
    (h : f' ∈ (flipWhere flag m).faces) :
    ∃ f ∈ m.faces, f' = f ∨ f' = revFace f := by
  have h2 : f' ∈ (List.range m.faces.length).map (fun i =>
      if flag i then revFace (m.faces.getD i default)
      else m.faces.getD i default) := h
  rcases List.mem_map.mp h2 with ⟨i, hi, heq⟩
  have hilt : i < m.faces.length := List.mem_range.mp hi
  have hmem : m.faces.getD i default ∈ m.faces := by
    rw [List.getD_eq_getElem _ _ hilt]
    exact List.getElem_mem _
  refine ⟨m.faces.getD i default, hmem, ?_⟩
  by_cases hf : flag i
  · right; rw [← heq, if_pos hf]
  · left; rw [← heq, if_neg hf]

/-- Each face slot `i` of `m` contributes a face of `flipWhere flag m`:
itself or its reversal. -/
theorem flipWhere_faces_surj {flag : ℕ → Bool} {m : Mesh} {i : ℕ}
    (hi : i < m.faces.length) :
    ∃ f' ∈ (flipWhere flag m).faces, f' = m.faces[i] ∨
      f' = revFace (m.faces[i]) := by
  refine ⟨if flag i then revFace (m.faces.getD i default)
    else m.faces.getD i default, ?_, ?_⟩
  · show _ ∈ (List.range m.faces.length).map _
    exact List.mem_map_of_mem _ (List.mem_range.mpr hi)
  · rw [List.getD_eq_getElem _ _ hi]
    by_cases h : flag i
    · right; rw [if_pos h]
    · left; rw [if_neg h]

theorem heal_normals_faces_mem {m : Mesh} {f' : Face}
    (h : f' ∈ m.heal_normals.faces) :
    ∃ f ∈ m.faces, f' = f ∨ f' = revFace f := by
  unfold Mesh.heal_normals at h
  exact mem_flipWhere_faces h

theorem heal_normals_faces_surj {m : Mesh} {i : ℕ} (hi : i < m.faces.length) :
    ∃ f' ∈ m.heal_normals.faces, f' = m.faces[i] ∨
      f' = revFace (m.faces[i]) := by
  unfold Mesh.heal_normals
  exact flipWhere_faces_surj hi

/-- Every face after triangle healing and normal healing comes from an
original face: it is its healed form or the reversal thereof. -/
theorem hthn_faces_corr (Y : Mesh) {f' : Face}
    (hf' : f' ∈ Y.heal_triangles.heal_normals.faces) :
    ∃ f ∈ Y.faces, f' = healTriangleFace f ∨
      f' = revFace (healTriangleFace f) := by
  rcases heal_normals_faces_mem hf' with ⟨g, hg, hcase⟩
  have hg2 : g ∈ Y.faces.map healTriangleFace := hg
  rcases List.mem_map.mp hg2 with ⟨f, hf, rfl⟩
  exact ⟨f, hf, hcase⟩

/-- Every original face survives triangle healing and normal healing as a
face: its healed form or the reversal thereof. -/
theorem hthn_faces_surj (Y : Mesh) {f : Face} (hf : f ∈ Y.faces) :
    ∃ f' ∈ Y.heal_triangles.heal_normals.faces,
      f' = healTriangleFace f ∨ f' = revFace (healTriangleFace f) := by
  rcases List.getElem_of_mem hf with ⟨i, hi, hfi⟩
  have hi2 : i < (Y.faces.map healTriangleFace).length := by
    rw [List.length_map]; exact hi
  have hi' : i < Y.heal_triangles.faces.length := hi2
  obtain ⟨f', hf', hc⟩ := heal_normals_faces_surj hi'
  refine ⟨f', hf', ?_⟩
  have hg : Y.heal_triangles.faces[i] = healTriangleFace f := by
    show (Y.faces.map healTriangleFace)[i] = _
    rw [List.getElem_map, hfi]
  rwa [hg] at hc

/-- The healed mesh `Y.heal_triangles.heal_normals` is a fixed point of the
whole pipeline, provided `Y` is already clean for the first three stages and
unambiguously orientable after triangle healing. -/
theorem hthn_heal_mesh_fix (close : Point → Point → Bool) (Y : Mesh)
    (hYvalid : ∀ f ∈ Y.faces, ∀ j ∈ faceIndexList f, j < Y.vertices.length)
    (hYused : ∀ v, v < Y.vertices.length → Y.usedIdx v = true)
    (hYdeg : ∀ f ∈ Y.faces, isDegenerate (Y.faceCoords f) = false)
    (hYfix : ∀ f ∈ Y.faces, mapFace (Y.mergeRep close) f = f)
    (hYor : Y.heal_triangles.orientable) :
    (Y.heal_triangles.heal_normals).heal_mesh close =
      Y.heal_triangles.heal_normals := by
  set Q := Y.heal_triangles.heal_normals with hQ
  have hQv : Q.vertices = Y.vertices := rfl
  have hQint : Q.internals = Internals.empty := rfl
  have hcorr : ∀ f' ∈ Q.faces, ∃ f ∈ Y.faces,
      (faceIndexList f').toFinset = (faceIndexList f).toFinset := by
    intro f' hf'
    rcases hthn_faces_corr Y hf' with ⟨f, hf, hc | hc⟩
    · exact ⟨f, hf, by rw [hc, toFinset_faceIndexList_healTriangleFace]⟩
    · exact ⟨f, hf, by
        rw [hc, toFinset_faceIndexList_revFace,
          toFinset_faceIndexList_healTriangleFace]⟩
  have hQvalid : ∀ f ∈ Q.faces, ∀ j ∈ faceIndexList f, j < Q.vertices.length := by
    intro f' hf' j hj
    rcases hcorr f' hf' with ⟨f, hf, hts⟩
    have hjf : j ∈ faceIndexList f := by
      have h1 : j ∈ (faceIndexList f').toFinset := List.mem_toFinset.mpr hj
      rw [hts] at h1
      exact List.mem_toFinset.mp h1
    rw [hQv]
    exact hYvalid f hf j hjf
  have hQused : ∀ v, v < Q.vertices.length → Q.usedIdx v = true := by
    intro v hvlt
    rw [hQv] at hvlt
    rcases usedIdx_iff.mp (hYused v hvlt) with ⟨f, hf, hjf⟩
    rcases hthn_faces_surj Y hf with ⟨f', hf', hc | hc⟩
    · refine usedIdx_iff.mpr ⟨f', hf', ?_⟩
      rw [hc, mem_faceIndexList_healTriangleFace]
      exact hjf
    · refine usedIdx_iff.mpr ⟨f', hf', ?_⟩
      rw [hc, mem_faceIndexList_revFace, mem_faceIndexList_healTriangleFace]
      exact hjf
  have hQdeg : ∀ f ∈ Q.faces, isDegenerate (Q.faceCoords f) = false := by
    intro f' hf'
    rcases hcorr f' hf' with ⟨f, hf, hts⟩
    rw [faceCoords_congr hQv, isDegenerate_congr Y f' f hts]
    exact hYdeg f hf
  have hQfix : ∀ f ∈ Q.faces, mapFace (Q.mergeRep close) f = f := by
    intro f' hf'
    rcases hcorr f' hf' with ⟨f, hf, hts⟩
    rw [mergeRep_congr close hQv]
    apply mapFace_fix_of_forall
    intro j hj
    have hjf : j ∈ faceIndexList f := by
      have h1 : j ∈ (faceIndexList f').toFinset := List.mem_toFinset.mpr hj
      rw [hts] at h1
      exact List.mem_toFinset.mp h1
    exact forall_of_mapFace_fix (hYfix f hf) j hjf
  have hQht : ∀ f ∈ Q.faces, htFixed f := by
    intro f' hf'
    rcases hthn_faces_corr Y hf' with ⟨f, _, hc | hc⟩
    · rw [hc]; exact htFixed_healTriangleFace f
    · rw [hc]; exact htFixed_revFace (htFixed_healTriangleFace f)
  show ((((Q.clearFacesProperties.remove_unused_vertices
    ).remove_degenerated_faces).merge_duplicates close
    ).heal_triangles).heal_normals = Q
  rw [cfp_id hQint, ru_id Q hQint hQvalid hQused, rd_id Q hQint hQdeg,
    md_id close Q hQint hQfix, ht_id Q hQint hQht]
  rw [hQ]
  exact heal_normals_idem Y.heal_triangles hYor

theorem sameShare_default_right (g : Face) : sameShare g default = false := by
  unfold sameShare
  rw [List.any_eq_false]
  intro e he
  rw [show (default : Face) = (0, 0, 0, 0) from rfl]
  simp [faceEdges]

theorem oppShare_default_right (g : Face) : oppShare g default = false := by
  unfold oppShare
  rw [List.any_eq_false]
  intro e he
  rw [show (default : Face) = (0, 0, 0, 0) from rfl]
  simp [faceEdges]

/-- Orientation-unambiguity only needs checking on in-range face pairs: the
out-of-range slots read the default face, which has no edges. -/
theorem orientable_of_forall_lt {m : Mesh}
    (h : ∀ i < m.faces.length, ∀ j < m.faces.length, m.meshAdj i j = true →
      ¬(sameShare (m.faces.getD i default) (m.faces.getD j default) = true ∧
        oppShare (m.faces.getD i default) (m.faces.getD j default) = true)) :
    m.orientable := by
  intro i j hadj
  by_cases hi : i < m.faces.length
  · by_cases hj : j < m.faces.length
    · exact h i hi j hj hadj
    · exfalso
      unfold Mesh.meshAdj at hadj
      rw [getD_default_of_ge hj, sameShare_default_right,
        oppShare_default_right] at hadj
      simp at hadj
  · exfalso
    unfold Mesh.meshAdj at hadj
    rw [getD_default_of_ge hi] at hadj
    have hs : sameShare default (m.faces.getD j default) = false := rfl
    have ho : oppShare default (m.faces.getD j default) = false := rfl
    rw [hs, ho] at hadj
    simp at hadj

/-- **C4 (amended).** `heal_mesh` runs the five stages in the stated fixed
order after invalidating the face-property cache, but it is not idempotent
in general (see the counterexample: degenerate-face removal can orphan
vertices that only the second pass removes).  It is idempotent on meshes
whose face indices are in range and for which the cleaned mesh
`X = m.clearFacesProperties.remove_unused_vertices` is already free of
degenerate faces and of mergeable vertex pairs, provided the
triangle-healed mesh is unambiguously orientable. -/
theorem C4_heal_mesh_amended (close : Point → Point → Bool) (m : Mesh)
    (hv : ∀ f ∈ m.faces, ∀ j ∈ faceIndexList f, j < m.vertices.length)
    (H1 : (m.clearFacesProperties.remove_unused_vertices
      ).remove_degenerated_faces = m.clearFacesProperties.remove_unused_vertices)
    (H2 : (m.clearFacesProperties.remove_unused_vertices).merge_duplicates close =
      m.clearFacesProperties.remove_unused_vertices)
    (Hor : (m.clearFacesProperties.remove_unused_vertices
      ).heal_triangles.orientable) :
    (m.heal_mesh close).heal_mesh close = m.heal_mesh close := by
  have hP : m.heal_mesh close =
      (m.clearFacesProperties.remove_unused_vertices
        ).heal_triangles.heal_normals := by
    unfold Mesh.heal_mesh
    rw [H1, H2]
  have hXvalid : ∀ f ∈ (m.clearFacesProperties.remove_unused_vertices).faces,
      ∀ j ∈ faceIndexList f,
        j < (m.clearFacesProperties.remove_unused_vertices).vertices.length :=
    ru_valid m.clearFacesProperties (by exact hv)
  have hXused := ru_all_used m.clearFacesProperties
  have hXdeg : ∀ f ∈ (m.clearFacesProperties.remove_unused_vertices).faces,
      isDegenerate ((m.clearFacesProperties.remove_unused_vertices
        ).faceCoords f) = false := by
    have h1f : (m.clearFacesProperties.remove_unused_vertices).faces.filter
        (fun f => !(isDegenerate ((m.clearFacesProperties.remove_unused_vertices
          ).faceCoords f))) =
        (m.clearFacesProperties.remove_unused_vertices).faces :=
      congrArg Mesh.faces H1
    intro f hf
    simpa using List.filter_eq_self.mp h1f f hf
  have hXfix : ∀ f ∈ (m.clearFacesProperties.remove_unused_vertices).faces,
      mapFace ((m.clearFacesProperties.remove_unused_vertices
        ).mergeRep close) f = f := by
    have h2f : (m.clearFacesProperties.remove_unused_vertices).faces.map
        (mapFace ((m.clearFacesProperties.remove_unused_vertices
          ).mergeRep close)) =
        (m.clearFacesProperties.remove_unused_vertices).faces :=
      congrArg Mesh.faces H2
    exact map_eq_self_mem h2f
  rw [hP]
  exact hthn_heal_mesh_fix close _ hXvalid hXused hXdeg hXfix Hor

/-- **C4 (amended), witness.** The healthy triangle mesh satisfies every
hypothesis concretely; healing it twice equals healing it once. -/
theorem C4_heal_mesh_amended_witness :
    (triMesh.clearFacesProperties.remove_unused_vertices
      ).remove_degenerated_faces =
        triMesh.clearFacesProperties.remove_unused_vertices ∧
    (triMesh.clearFacesProperties.remove_unused_vertices
      ).merge_duplicates closeExact =
        triMesh.clearFacesProperties.remove_unused_vertices ∧
    (triMesh.heal_mesh closeExact).heal_mesh closeExact =
      triMesh.heal_mesh closeExact :=
  ⟨rfl, rfl, C4_heal_mesh_amended closeExact triMesh (by decide) rfl rfl
    (orientable_of_forall_lt (by decide))⟩

end Capytaine
